import Mathlib

/-!
# golang-sql-migrate: reconciliation and application engine

A shallow embedding of `migrate.go`, `db.go` and `util.go`.

* Go strings are byte sequences.  They are embedded as lists of natural numbers
  (`GoString`); every operation the program uses (concatenation, `==`, `<`,
  slicing, `strings.Replace`) acts on the sequence alone, so a statement proved for
  all lists of naturals holds for all byte strings.
* The database is the bookkeeping table `migrations` (rows `id, migration, batch`),
  its `AUTO_INCREMENT` counter, and the journal of the statements handed to `run`.
  Statements whose text the program fixes or binds through placeholders are embedded
  by their effect on the rows; the `DELETE` of `delete`, whose text is spliced from the
  migration name, is handed as text to the database of the environment.
* The file system and the failure behaviour of the SQL driver are an explicit
  environment `Env` (directory listing, existence/read oracles, execution oracle).
* A Go `map[string]*migration` is an association list; the order in which `range`
  visits it is chosen by the Go runtime and is an explicit argument (`Sched`).
-/

namespace Migrate

/-! ## Strings -/

/-- A Go string: a sequence of bytes. -/
abbrev GoString := List Nat

/-- The bytes of an ASCII literal. -/
def ofAscii (s : String) : GoString := s.toList.map Char.toNat

/-- The literal `".up.sql"`. -/
def upSuffix : GoString := [46, 117, 112, 46, 115, 113, 108]

/-- The literal `".down.sql"`. -/
def downSuffix : GoString := [46, 100, 111, 119, 110, 46, 115, 113, 108]

/-- The literal `"/"`. -/
def slash : GoString := [47]

/-- Go's `a < b` on strings: bytewise lexicographic comparison. -/
def strLt : GoString → GoString → Bool
  | [], [] => false
  | [], _ :: _ => true
  | _ :: _, [] => false
  | a :: as, b :: bs => if a < b then true else if b < a then false else strLt as bs

/-- The loop of `strings.Replace(s, old, new, -1)` for a non-empty `old`: scanning from
the left, every non-overlapping occurrence of `old` is replaced by `new`.  The first
argument counts the bytes of the occurrence just matched that are still to be skipped. -/
def replaceFrom (old new : GoString) : Nat → GoString → GoString
  | _, [] => []
  | skip + 1, _ :: cs => replaceFrom old new skip cs
  | 0, c :: cs =>
    if old.isPrefixOf (c :: cs) then new ++ replaceFrom old new (old.length - 1) cs
    else c :: replaceFrom old new 0 cs

/-- The call `strings.Replace(s, old, new, -1)` (`old` non-empty, as at both call sites). -/
def stringsReplace (s old new : GoString) : GoString :=
  if old = new then s else replaceFrom old new 0 s

/-- The method `getDBFileName` of db.go. -/
def getDBFileName (fileName : GoString) : GoString :=
  let fileName := stringsReplace fileName upSuffix []
  let fileName := stringsReplace fileName downSuffix []
  fileName

/-! ## Data model -/

/-- The struct `migration` of migrate.go. -/
structure migration where
  id : Int := 0
  name : GoString := []
  version : Int := 0
  createdAt : GoString := []
  pathUp : GoString := []
  pathDown : GoString := []
  fail : Bool := false
  hasMigrated : Bool := false
  deriving DecidableEq, Repr

/-- A row of the table `migrations`: columns `id`, `migration`, `batch`. -/
structure Row where
  id : Int
  name : GoString
  batch : Int
  deriving DecidableEq, Repr

/-- The database as the engine sees it: the rows of `migrations` in the order a
`SELECT *` yields them, the `AUTO_INCREMENT` counter of the table, and the journal of
the statements handed to `run`, oldest first. -/
structure DB where
  rows : List Row
  nextId : Int
  journal : List GoString
  deriving DecidableEq, Repr

/-- The errors the engine returns.  `scanNull` is the error of `rows.Scan` on a `NULL`
column read into an `int`; `sliceBounds` stands for the run-time panic of the slice
expression `fileName[0:18]` on a shorter name. -/
inductive GoError where
  | readDir
  | query
  | scanNull
  | sliceBounds
  | missingFile (path : GoString)
  | insertFailed (name : GoString)
  deriving DecidableEq, Repr

/-- The collaborators of the engine: the migration directory and the failure
behaviour of file reads and of the SQL driver.

* `dir`: the names `ioutil.ReadDir(migrationPath)` returns, `none` when it fails;
* `fileExists`, `readFile`: `fileExists` and `getFileContents` of util.go;
* `execOk journal sql`: whether `db.Exec(sql)` succeeds after the statements of
  `journal` have been handed to the driver;
* `selectOk`, `insertOk`: whether the bookkeeping queries and inserts succeed;
* `execDelete sql rows`: the rows the database leaves when it executes the `DELETE`
  statement `sql` on the table `rows`, `none` when the statement fails. -/
structure Env where
  migrationPath : GoString
  dir : Option (List GoString)
  fileExists : GoString → Bool
  readFile : GoString → Option GoString
  execOk : List GoString → GoString → Bool
  selectOk : Bool
  insertOk : GoString → Int → Bool
  execDelete : GoString → List Row → Option (List Row)

/-- A `map[string]*migration`: keys are unique; the order of the list is the order of
insertion and carries no meaning for `range`. -/
abbrev MigMap := List (GoString × migration)

/-- The keys of the map. -/
def keys (m : MigMap) : List GoString := m.map Prod.fst

/-- The read `m[k]`. -/
def lookup (k : GoString) : MigMap → Option migration
  | [] => none
  | (k', v) :: m => if k' = k then some v else lookup k m

/-- The assignment `migrations[k].fail = b` through the stored pointer. -/
def setFail (k : GoString) (b : Bool) : MigMap → MigMap
  | [] => []
  | (k', v) :: m =>
    if k' = k then (k', { v with fail := b }) :: m else (k', v) :: setFail k b m

/-- The orders in which the Go runtime visits the keys in the three `range` loops of
`Up` over the map (main loop, compensation sweep, `create`). -/
structure Sched where
  main : List GoString
  sweep : List GoString
  create : List GoString

/-! ## util.go -/

/-- The function `getFiles`: the names of the directory entries. -/
def getFiles (env : Env) : Except GoError (List GoString) :=
  match env.dir with
  | none => .error .readDir
  | some files => .ok files

/-! ## db.go -/

/-- The aggregate `MAX(batch)`: `NULL` over no rows.  The column is a 32-bit `INT`, so
the `version + 1` of `getMigrateFiles` does not overflow Go's 64-bit `int`; batches are
unbounded integers here. -/
def maxBatch : List Row → Option Int
  | [] => none
  | r :: rs =>
    match maxBatch rs with
    | none => some r.batch
    | some m => some (max r.batch m)

/-- The method `GetVersion`: `SELECT MAX(batch) AS version FROM migrations`, scanned
into `version`.  Over a table without rows the query yields one row that holds `NULL`;
`rows.Scan(&version)` cannot store it in an `int` and the method returns that error. -/
def GetVersion (env : Env) (db : DB) : Except GoError Int :=
  if env.selectOk then
    match maxBatch db.rows with
    | none => .error .scanNull
    | some version => .ok version
  else .error .query

/-- The `migration` value into which `get` scans a row. -/
def scanRow (r : Row) : migration := { id := r.id, name := r.name, version := r.batch }

/-- The method `get`: the stored rows, scanned into `migration` values. -/
def get (env : Env) (db : DB) (currentVersion : Bool) : Except GoError (List migration) :=
  match GetVersion env db with
  | .error e => .error e
  | .ok version =>
    if env.selectOk then
      let rows := if currentVersion then db.rows.filter (fun r => r.batch = version) else db.rows
      .ok (rows.map scanRow)
    else .error .query

/-- The statement `INSERT INTO migrations (migration, batch) VALUES (?, ?)`. -/
def insertRow (env : Env) (db : DB) (name : GoString) (batch : Int) : DB × Bool :=
  if env.insertOk name batch then
    ({ db with rows := db.rows ++ [⟨db.nextId, name, batch⟩], nextId := db.nextId + 1 }, true)
  else (db, false)

/-- The loop of `create` over the keys in the order `ord`. -/
def createLoop (env : Env) : List GoString → MigMap → DB → DB × Option GoError
  | [], _, db => (db, none)
  | k :: ks, m, db =>
    match lookup k m with
    | none => createLoop env ks m db
    | some v =>
      if !v.hasMigrated then
        match insertRow env db v.name v.version with
        | (db1, true) => createLoop env ks m db1
        | (db1, false) => (db1, some (.insertFailed v.name))
      else createLoop env ks m db

/-- The method `create`. -/
def create (env : Env) (ord : List GoString) (migrations : MigMap) (db : DB) :
    DB × Option GoError :=
  createLoop env ord migrations db

/-- The literal `"DELETE FROM migrations WHERE migration = '"`. -/
def deleteHead : GoString := ofAscii "DELETE FROM migrations WHERE migration = '"

/-- The literal `"'"`. -/
def quote : GoString := [39]

/-- The statement text of `delete`: the name spliced between the two literals. -/
def deleteSql (name : GoString) : GoString := deleteHead ++ name ++ quote

/-- The method `delete`: the spliced statement is handed to the database. -/
def delete (env : Env) (db : DB) (name : GoString) : DB × Bool :=
  match env.execDelete (deleteSql name) db.rows with
  | some rows => ({ db with rows := rows }, true)
  | none => (db, false)

/-! ## migrate.go -/

/-- The method `run`: hands `sql` to the driver. -/
def run (env : Env) (db : DB) (sql : GoString) : DB × Bool :=
  ({ db with journal := db.journal ++ [sql] }, env.execOk db.journal sql)

/-- Insertion of `x` into a list sorted by `less`. -/
def insertSorted (less : GoString → GoString → Bool) (x : GoString) :
    List GoString → List GoString
  | [] => [x]
  | y :: ys => if less x y then x :: y :: ys else y :: insertSorted less x ys

/-- The call `sort.Slice(files, less)`; directory entries have distinct names, so the
result does not depend on the sorting algorithm. -/
def sortSlice (less : GoString → GoString → Bool) : List GoString → List GoString
  | [] => []
  | x :: xs => insertSorted less x (sortSlice less xs)

/-- The method `sort`: with `up` the comparison is `files[i].Name() > files[j].Name()`. -/
def sort (files : List GoString) (up : Bool) : List GoString :=
  if up then sortSlice (fun a b => strLt b a) files
  else sortSlice (fun a b => strLt a b) files

/-- The struct literal `&migration{...}` that the first loop of `getMigrateFiles` stores
for the file `fileName`. -/
def foundMigration (path : GoString) (version : Int) (fileName : GoString) : migration :=
  { name := getDBFileName fileName,
    version := version + 1,
    createdAt := fileName.take 18,
    pathUp := path ++ slash ++ getDBFileName fileName ++ upSuffix,
    pathDown := path ++ slash ++ getDBFileName fileName ++ downSuffix,
    fail := false,
    hasMigrated := false }

/-- The first loop of `getMigrateFiles`: one entry per canonical name.  The slice
`fileName[0:18]` panics on a name shorter than 18 bytes. -/
def buildFound (path : GoString) (version : Int) :
    List GoString → MigMap → Except GoError MigMap
  | [], found => .ok found
  | fileName :: fs, found =>
    if fileName.length < 18 then .error .sliceBounds
    else
      let name := getDBFileName fileName
      match lookup name found with
      | some _ => buildFound path version fs found
      | none => buildFound path version fs (found ++ [(name, foundMigration path version fileName)])

/-- The body of the inner loop of the second loop of `getMigrateFiles`, for the entry
`k, m` and the stored row `v`: `if m.name == v.name { ... }`. -/
def markEntry (e : GoString × migration) (v : migration) : GoString × migration :=
  if e.2.name = v.name then (e.1, { e.2 with version := v.version, hasMigrated := true })
  else e

/-- The inner loop of the second loop of `getMigrateFiles` for one stored row `v`: it
visits every entry once and touches only the entry visited, so the order is immaterial. -/
def markStored (v : migration) (found : MigMap) : MigMap :=
  found.map fun e => markEntry e v

/-- The second loop of `getMigrateFiles`. -/
def assignStored (migrations : List migration) (found : MigMap) : MigMap :=
  migrations.foldl (fun acc v => markStored v acc) found

/-- The method `getMigrateFiles`. -/
def getMigrateFiles (env : Env) (db : DB) : Except GoError MigMap :=
  match getFiles env with
  | .error e => .error e
  | .ok files =>
    let files := sort files true
    match GetVersion env db with
    | .error e => .error e
    | .ok version =>
      match buildFound env.migrationPath version files [] with
      | .error e => .error e
      | .ok migrationsFound =>
        match get env db false with
        | .error e => .error e
        | .ok migrations => .ok (assignStored migrations migrationsFound)

/-- The state of `Up` when it leaves its main loop; `err` is set when the loop was left
by `return`. -/
structure UpLoop where
  migrations : MigMap
  db : DB
  isDirtyMigration : Bool
  err : Option GoError

/-- The main loop of `Up` over the keys in the order `ord`. -/
def upLoop (env : Env) : List GoString → MigMap → DB → UpLoop
  | [], m, db => ⟨m, db, false, none⟩
  | k :: ks, m, db =>
    match lookup k m with
    | none => upLoop env ks m db
    | some v =>
      if !v.hasMigrated then
        if !env.fileExists v.pathUp then ⟨m, db, false, some (.missingFile v.pathUp)⟩
        else
          match env.readFile v.pathUp with
          | none => ⟨setFail k true m, db, true, none⟩
          | some contents =>
            match run env db contents with
            | (db1, false) => ⟨setFail k true m, db1, true, none⟩
            | (db1, true) => upLoop env ks (setFail k false m) db1
      else upLoop env ks m db

/-- The compensation sweep of `Up` over the keys in the order `ord`; a failed read
leaves `contents` empty and `run` is called all the same. -/
def sweepLoop (env : Env) : List GoString → MigMap → DB → DB
  | [], _, db => db
  | k :: ks, m, db =>
    match lookup k m with
    | none => sweepLoop env ks m db
    | some v =>
      if !v.fail then
        let contents := (env.readFile v.pathDown).getD []
        sweepLoop env ks m (run env db contents).1
      else sweepLoop env ks m db

/-- The method `Up`: the database it leaves and the error it returns. -/
def Up (env : Env) (sch : Sched) (db : DB) : DB × Option GoError :=
  match getMigrateFiles env db with
  | .error e => (db, some e)
  | .ok migrations =>
    match upLoop env sch.main migrations db with
    | ⟨_, db1, _, some e⟩ => (db1, some e)
    | ⟨m, db1, true, none⟩ => (sweepLoop env sch.sweep m db1, none)
    | ⟨m, db1, false, none⟩ => create env sch.create m db1

/-- The state of `Rollback` when it leaves its loop. -/
structure RollbackLoop where
  db : DB
  hasRolledBack : Bool
  err : Option GoError

/-- The loop of `Rollback` over the keys in the order `ord`. -/
def rollbackLoop (env : Env) (currentVersion : Int) :
    List GoString → MigMap → DB → Bool → RollbackLoop
  | [], _, db, hasRolledBack => ⟨db, hasRolledBack, none⟩
  | k :: ks, m, db, hasRolledBack =>
    match lookup k m with
    | none => rollbackLoop env currentVersion ks m db hasRolledBack
    | some v =>
      if v.version = currentVersion then
        if !env.fileExists v.pathDown then ⟨db, hasRolledBack, some (.missingFile v.pathDown)⟩
        else
          match env.readFile v.pathDown with
          | none => ⟨db, false, none⟩
          | some contents =>
            match run env db contents with
            | (db1, false) => ⟨db1, false, none⟩
            | (db1, true) =>
              match delete env db1 v.name with
              | (db2, true) => rollbackLoop env currentVersion ks m db2 hasRolledBack
              | (db2, false) => rollbackLoop env currentVersion ks m db2 false
      else rollbackLoop env currentVersion ks m db hasRolledBack

/-- The method `Rollback`: the database it leaves and the error it returns.  Both
branches on `hasRolledBack` only differ in what they print. -/
def Rollback (env : Env) (ord : List GoString) (db : DB) : DB × Option GoError :=
  match getMigrateFiles env db with
  | .error e => (db, some e)
  | .ok migrations =>
    match GetVersion env db with
    | .error e => (db, some e)
    | .ok currentVersion =>
      match rollbackLoop env currentVersion ord migrations db true with
      | ⟨db1, _, some e⟩ => (db1, some e)
      | ⟨db1, false, none⟩ => (db1, none)
      | ⟨db1, true, none⟩ => (db1, none)

/-! ## The time stamp of `Make` -/

/-- A wall-clock reading of `time.Now()`. -/
structure Time where
  year : Nat
  month : Nat
  day : Nat
  hour : Nat
  minute : Nat
  second : Nat
  deriving DecidableEq, Repr

/-- A calendar reading with a four-digit year. -/
def Time.valid (t : Time) : Bool :=
  1000 ≤ t.year && t.year ≤ 9999 && 1 ≤ t.month && t.month ≤ 12 && 1 ≤ t.day && t.day ≤ 31
    && t.hour ≤ 23 && t.minute ≤ 59 && t.second ≤ 59

/-- Whether `a` is an earlier instant than `b`. -/
def Time.before (a b : Time) : Bool :=
  decide (a.year < b.year) || (a.year == b.year &&
    (decide (a.month < b.month) || (a.month == b.month &&
      (decide (a.day < b.day) || (a.day == b.day &&
        (decide (a.hour < b.hour) || (a.hour == b.hour &&
          (decide (a.minute < b.minute) || (a.minute == b.minute &&
            decide (a.second < b.second))))))))))

/-- The ASCII digit of `n % 10`. -/
def digit (n : Nat) : Nat := 48 + n % 10

/-- Two zero-padded decimal digits. -/
def pad2 (n : Nat) : GoString := [digit (n / 10), digit n]

/-- Four zero-padded decimal digits (years of four digits). -/
def pad4 (n : Nat) : GoString := [digit (n / 1000), digit (n / 100), digit (n / 10), digit n]

/-- The literal `"_"`. -/
def underscore : GoString := [95]

/-- The call `t.Format("2006_02_01_15_0405")` of `Make`: in a Go layout `2006` is the
year, `02` the day of the month, `01` the month, `15` the hour, `04` the minute and
`05` the second. -/
def formatStamp (t : Time) : GoString :=
  pad4 t.year ++ underscore ++ pad2 t.day ++ underscore ++ pad2 t.month ++ underscore
    ++ pad2 t.hour ++ underscore ++ pad2 t.minute ++ pad2 t.second

/-- The name `Make` gives the file of kind `k` (`up.sql` or `down.sql`), without the
directory: `timeString + "_" + fileName + "." + k`. -/
def makeFileName (t : Time) (fileName k : GoString) : GoString :=
  formatStamp t ++ underscore ++ fileName ++ [46] ++ k

/-! ## Notions used in the statements -/

/-- The batch of the last row of the table that carries the name `n`, if any. -/
def storedBatch (n : GoString) : List Row → Option Int
  | [] => none
  | r :: rs =>
    match storedBatch n rs with
    | some b => some b
    | none => if r.name = n then some r.batch else none

/-- The contents `Up` and `Rollback` hand to `run` for the down-file of the migration
`name`; empty when the file cannot be read. -/
def downBody (env : Env) (name : GoString) : GoString :=
  (env.readFile (env.migrationPath ++ slash ++ name ++ downSuffix)).getD []

/-- The keys of the candidates that are still to be applied. -/
def pendingKeys (m : MigMap) : List GoString :=
  (m.filter fun e => !e.2.hasMigrated).map Prod.fst

/-- What the first loop of `getMigrateFiles` guarantees of the map it returns. -/
structure FoundOk (path : GoString) (version : Int) (files : List GoString) (m : MigMap) :
    Prop where
  nodup : (keys m).Nodup
  mem_keys : ∀ k, k ∈ keys m ↔ ∃ f ∈ files, getDBFileName f = k
  entry : ∀ e ∈ m, ∃ f ∈ files, e = (getDBFileName f, foundMigration path version f)
  long : ∀ f ∈ files, 18 ≤ f.length

/-- What `getMigrateFiles` guarantees of the map it returns for the directory listing
`files`, the table `rows` and the current version `v`. -/
structure Reconciled (path : GoString) (files : List GoString) (rows : List Row) (v : Int)
    (m : MigMap) : Prop where
  nodup : (keys m).Nodup
  mem_keys : ∀ k, k ∈ keys m ↔ ∃ f ∈ files, getDBFileName f = k
  entry : ∀ k c, (k, c) ∈ m →
    c.name = k ∧ c.fail = false ∧
    c.pathUp = path ++ slash ++ k ++ upSuffix ∧
    c.pathDown = path ++ slash ++ k ++ downSuffix ∧
    c.hasMigrated = (storedBatch k rows).isSome ∧
    c.version = (storedBatch k rows).getD (v + 1)

/-- The pair (name, batch) that `create` inserts when it visits the key `k`, if any. -/
def insertedBy (m : MigMap) (k : GoString) : Option (GoString × Int) :=
  match lookup k m with
  | some c => if c.hasMigrated then none else some (c.name, c.version)
  | none => none

/-- The keys of `ord`, in order, whose candidate carries the version `v`: the
candidates `Rollback` reverts. -/
def selected (m : MigMap) (v : Int) (ord : List GoString) : List GoString :=
  ord.filter fun k =>
    match lookup k m with
    | some c => decide (c.version = v)
    | none => false

/-! ## Concrete directories -/

/-- A database that executes `DELETE FROM migrations WHERE migration = '<literal>'`:
the literal ends at the first quote; the statement removes the rows whose name is the
literal when nothing follows the closing quote and the literal holds no backslash, and
fails otherwise. -/
def sqlDelete (sql : GoString) (rows : List Row) : Option (List Row) :=
  if deleteHead.isPrefixOf sql then
    let rest := sql.drop deleteHead.length
    let literal := rest.takeWhile fun b => b ≠ 39
    if rest.drop literal.length = quote ∧ 92 ∉ literal then
      some (rows.filter fun r => r.name ≠ literal)
    else none
  else none

/-- A directory under `path` given by its files (name, contents), all readable, on a
database whose queries and inserts succeed and whose deletes are those of `sqlDelete`. -/
def dirEnv (path : GoString) (files : List (GoString × GoString))
    (execOk : List GoString → GoString → Bool) : Env where
  migrationPath := path
  dir := some (files.map Prod.fst)
  fileExists := fun p => files.any fun f => path ++ slash ++ f.1 = p
  readFile := fun p => (files.find? fun f => path ++ slash ++ f.1 = p).map Prod.snd
  execOk := execOk
  selectOk := true
  insertOk := fun _ _ => true
  execDelete := sqlDelete

/-- The migration name `2024_01_01_00_0000_init`. -/
def nameA : GoString := ofAscii "2024_01_01_00_0000_init"

/-- The migration name `2024_01_02_00_0000_add_col`. -/
def nameB : GoString := ofAscii "2024_01_02_00_0000_add_col"

/-- The migration name `2024_01_03_00_0000_add_idx`. -/
def nameC : GoString := ofAscii "2024_01_03_00_0000_add_idx"

/-- The migration name `2024_01_04_00_0000_add_key`. -/
def nameD : GoString := ofAscii "2024_01_04_00_0000_add_key"

/-- The down- and up-file of the migration `name`, in the order `ioutil.ReadDir` lists
them, with contents `DOWN <tag>` and `UP <tag>`. -/
def pairOf (name : GoString) (tag : String) : List (GoString × GoString) :=
  [(name ++ downSuffix, ofAscii "DOWN " ++ ofAscii tag),
   (name ++ upSuffix, ofAscii "UP " ++ ofAscii tag)]

/-- The directory of the scenario of the specification: the pairs of `init` and
`add_col`; every statement executes. -/
def scenario : Env :=
  dirEnv (ofAscii "db") (pairOf nameA "a" ++ pairOf nameB "b") (fun _ _ => true)

/-- The pairs of `init`, `add_col` and `add_idx`; every statement executes. -/
def threePairs : Env :=
  dirEnv (ofAscii "db") (pairOf nameA "a" ++ pairOf nameB "b" ++ pairOf nameC "c")
    (fun _ _ => true)

/-- A run in which every `range` visits `add_idx`, `add_col`, `init`: the order in which
the entries were stored. -/
def threeNewestFirst : Sched :=
  ⟨[nameC, nameB, nameA], [nameC, nameB, nameA], [nameC, nameB, nameA]⟩

/-- A run in which every `range` starts at `add_col` and goes on through the entries in
the order in which they were stored (`init`, then `add_idx`). -/
def fromAddCol : Sched :=
  ⟨[nameB, nameA, nameC], [nameB, nameA, nameC], [nameB, nameA, nameC]⟩

/-- The pairs of `init`, `add_col`, `add_idx` and `add_key` on a database that rejects
the up-file of `add_idx`. -/
def addIdxRejected : Env :=
  dirEnv (ofAscii "db")
    (pairOf nameA "a" ++ pairOf nameB "b" ++ pairOf nameC "c" ++ pairOf nameD "d")
    (fun _ sql => sql ≠ ofAscii "UP c")

/-- A run in which every `range` starts at `init` and goes on through the entries in the
order in which they were stored (`add_key`, `add_idx`, `add_col`). -/
def fromInit : Sched :=
  ⟨[nameA, nameD, nameC, nameB], [nameA, nameD, nameC, nameB], [nameA, nameD, nameC, nameB]⟩

/-- The directory of the scenario on a database that rejects the down-file of `init`. -/
def initDownRejected : Env :=
  dirEnv (ofAscii "db") (pairOf nameA "a" ++ pairOf nameB "b")
    (fun _ sql => sql ≠ ofAscii "DOWN a")

/-- The pairs of `init` and `add_col` and the down-file of `add_idx` alone: the up-file
of `add_idx` is missing. -/
def addIdxUpMissing : Env :=
  dirEnv (ofAscii "db")
    (pairOf nameA "a" ++ pairOf nameB "b" ++ [(nameC ++ downSuffix, ofAscii "DOWN c")])
    (fun _ _ => true)

/-- The instant 2024-01-31 00:00:00. -/
def jan31 : Time := ⟨2024, 1, 31, 0, 0, 0⟩

/-- The instant 2024-02-01 00:00:00. -/
def feb01 : Time := ⟨2024, 2, 1, 0, 0, 0⟩

/-- An empty bookkeeping table. -/
def emptyDB : DB := ⟨[], 1, []⟩

/-- The map `getMigrateFiles` returns for `threePairs` on the table in which `init` is
recorded: the entries are stored greatest name first. -/
def threePairsMap : MigMap :=
  [(nameC, foundMigration (ofAscii "db") 1 (nameC ++ upSuffix)),
   (nameB, foundMigration (ofAscii "db") 1 (nameB ++ upSuffix)),
   (nameA, { foundMigration (ofAscii "db") 1 (nameA ++ upSuffix) with
              version := 1, hasMigrated := true })]

/-- A table that records `init` in batch 1 and `add_idx`, `add_col` in batch 2: what
`Up` leaves when it starts from `initApplied` and stores `add_idx` first. -/
def threeApplied : DB := ⟨[⟨1, nameA, 1⟩, ⟨2, nameC, 2⟩, ⟨3, nameB, 2⟩], 4, []⟩

/-- A table that holds the name `init` twice, in batch 1 and in batch 2. -/
def initTwice : DB := ⟨[⟨1, nameA, 1⟩, ⟨2, nameA, 2⟩], 3, []⟩

/-- The directory of the scenario on a database that fails every `DELETE`. -/
def deleteRejected : Env :=
  { scenario with execDelete := fun _ _ => none }

/-- A table in which `init` is recorded in batch 1. -/
def initApplied : DB := ⟨[⟨1, nameA, 1⟩], 2, []⟩

/-- A run in which every `range` visits `init` before `add_col`. -/
def oldestFirst : Sched := ⟨[nameA, nameB], [nameA, nameB], [nameA, nameB]⟩

/-- A run in which every `range` visits `add_col` before `init`. -/
def newestFirst : Sched := ⟨[nameB, nameA], [nameB, nameA], [nameB, nameA]⟩

/-! ## Facts about `strings.Replace` -/

theorem replaceFrom_drop (old new : GoString) (k : Nat) (s : GoString) :
    replaceFrom old new k s = replaceFrom old new 0 (s.drop k) := by
  induction k generalizing s with
  | zero => simp
  | succ k ih =>
    cases s with
    | nil => simp [replaceFrom]
    | cons c cs => simp only [replaceFrom, List.drop_succ_cons]; exact ih cs

theorem replaceFrom_noOccurrence (old new : GoString) (s : GoString)
    (h : ¬ old <:+: s) : replaceFrom old new 0 s = s := by
  induction s with
  | nil => simp [replaceFrom]
  | cons c cs ih =>
    have h1 : old.isPrefixOf (c :: cs) = false := by
      rw [Bool.eq_false_iff]
      intro hp
      exact h (List.isPrefixOf_iff_prefix.mp hp).isInfix
    have h2 : ¬ old <:+: cs := fun hi => h (List.infix_cons hi)
    simp [replaceFrom, h1, ih h2]

/-- A prefix `w` of `t ++ v` that starts in a non-empty `t` either lies inside `t` or
straddles the seam, in which case a proper suffix of `w` is a prefix of `v`. -/
theorem prefix_append_cases (w t v : GoString) (h : w <+: t ++ v) :
    w <+: t ∨ (t.length < w.length ∧ (w.drop t.length) <+: v) := by
  obtain ⟨s, hs⟩ := h
  rcases List.append_eq_append_iff.mp hs with ⟨a, ha, _⟩ | ⟨c, hc, hv⟩
  · exact Or.inl ⟨a, ha.symm⟩
  · by_cases hc0 : c = []
    · subst hc0
      left
      simp at hc
      subst hc
      exact List.prefix_refl _
    · right
      subst hc
      refine ⟨?_, ?_⟩
      · simp; exact List.length_pos.mpr hc0
      · simp [hv]

theorem noOccurrence_append (w v : GoString)
    (hb : ∀ m, m < w.length → (w.drop m).isPrefixOf v = false) (hv : ¬ w <:+: v)
    (n : GoString) (hn : ¬ w <:+: n) : ¬ w <:+: n ++ v := by
  induction n with
  | nil => simpa using hv
  | cons c cs ih =>
    intro hi
    rw [List.cons_append, List.infix_cons_iff] at hi
    rcases hi with hp | hi
    · rw [← List.cons_append] at hp
      rcases prefix_append_cases w (c :: cs) v hp with h1 | ⟨h1, h2⟩
      · exact hn h1.isInfix
      · have := hb _ h1
        rw [Bool.eq_false_iff] at this
        exact this (List.isPrefixOf_iff_prefix.mpr h2)
    · exact ih (fun h => hn (List.infix_cons h)) hi

theorem replaceFrom_append_self (w : GoString) (hw : w ≠ [])
    (hb : ∀ m, m < w.length → 0 < m → (w.drop m).isPrefixOf w = false)
    (n : GoString) (hn : ¬ w <:+: n) : replaceFrom w [] 0 (n ++ w) = n := by
  induction n with
  | nil =>
    cases w with
    | nil => exact absurd rfl hw
    | cons c cs =>
      have : (c :: cs).isPrefixOf (c :: cs) = true :=
        List.isPrefixOf_iff_prefix.mpr (List.prefix_refl _)
      simp only [List.nil_append, replaceFrom, this, if_true]
      rw [replaceFrom_drop]
      simp [replaceFrom]
  | cons c cs ih =>
    have h1 : w.isPrefixOf (c :: cs ++ w) = false := by
      rw [Bool.eq_false_iff]
      intro hp
      rcases prefix_append_cases w (c :: cs) w (List.isPrefixOf_iff_prefix.mp hp) with h1 | ⟨h1, h2⟩
      · exact hn h1.isInfix
      · have := hb _ h1 (by simp)
        rw [Bool.eq_false_iff] at this
        exact this (List.isPrefixOf_iff_prefix.mpr h2)
    have h2 : ¬ w <:+: cs := fun hi => hn (List.infix_cons hi)
    simp only [List.cons_append] at h1 ⊢
    simp [replaceFrom, h1, ih h2]

theorem upSuffix_not_infix_downSuffix : ¬ upSuffix <:+: downSuffix := by decide

/-- C10: canonicalisation strips the suffix of either file of a pair: when the base
name `n` contains neither `".up.sql"` nor `".down.sql"`, `getDBFileName` maps both
`n ++ ".up.sql"` and `n ++ ".down.sql"` to `n`. -/
theorem getDBFileName_pair (n : GoString)
    (hup : ¬ upSuffix <:+: n) (hdown : ¬ downSuffix <:+: n) :
    getDBFileName (n ++ upSuffix) = n ∧ getDBFileName (n ++ downSuffix) = n := by
  have hne : upSuffix ≠ ([] : GoString) := by decide
  have hne2 : downSuffix ≠ ([] : GoString) := by decide
  have e1 : replaceFrom upSuffix [] 0 (n ++ upSuffix) = n :=
    replaceFrom_append_self upSuffix hne (by decide) n hup
  have e2 : replaceFrom downSuffix [] 0 (n ++ downSuffix) = n :=
    replaceFrom_append_self downSuffix hne2 (by decide) n hdown
  have e3 : replaceFrom upSuffix [] 0 (n ++ downSuffix) = n ++ downSuffix :=
    replaceFrom_noOccurrence _ _ _
      (noOccurrence_append upSuffix downSuffix (by decide) upSuffix_not_infix_downSuffix n hup)
  have e4 : replaceFrom downSuffix [] 0 n = n := replaceFrom_noOccurrence _ _ _ hdown
  simp [getDBFileName, stringsReplace, hne, hne2, e1, e2, e3, e4]

/-- The pair `2024_01_01_00_0000_init.up.sql` / `.down.sql` of the spec's scenario. -/
theorem getDBFileName_pair_witness :
    getDBFileName (ofAscii "2024_01_01_00_0000_init" ++ upSuffix)
        = ofAscii "2024_01_01_00_0000_init"
      ∧ getDBFileName (ofAscii "2024_01_01_00_0000_init" ++ downSuffix)
        = ofAscii "2024_01_01_00_0000_init" :=
  getDBFileName_pair (ofAscii "2024_01_01_00_0000_init") (by decide) (by decide)

/-! ## Facts about maps -/

theorem lookup_mem {k : GoString} {m : MigMap} {v : migration} (h : lookup k m = some v) :
    (k, v) ∈ m := by
  induction m with
  | nil => simp [lookup] at h
  | cons e m ih =>
    obtain ⟨k', v'⟩ := e
    by_cases hk : k' = k
    · simp [lookup, hk] at h
      simp [hk, h]
    · simp [lookup, hk] at h
      exact List.mem_cons_of_mem _ (ih h)

theorem lookup_eq_none {k : GoString} {m : MigMap} : lookup k m = none ↔ k ∉ keys m := by
  induction m with
  | nil => simp [lookup, keys]
  | cons e m ih =>
    obtain ⟨k', v'⟩ := e
    by_cases hk : k' = k
    · simp [lookup, keys, hk]
    · simp only [keys] at ih
      simp [lookup, keys, hk, ih, Ne.symm hk]

theorem lookup_of_mem {k : GoString} {m : MigMap} {v : migration} (hn : (keys m).Nodup)
    (h : (k, v) ∈ m) : lookup k m = some v := by
  induction m with
  | nil => simp at h
  | cons e m ih =>
    obtain ⟨k', v'⟩ := e
    simp only [keys, List.map_cons, List.nodup_cons] at hn
    rcases List.mem_cons.mp h with h | h
    · cases h
      simp [lookup]
    · have hk : k' ≠ k := by
        rintro rfl
        exact hn.1 (List.mem_map.mpr ⟨(k', v), h, rfl⟩)
      simp only [lookup, hk, if_false]
      exact ih hn.2 h

theorem mem_keys_of_lookup {k : GoString} {m : MigMap} {v : migration}
    (h : lookup k m = some v) : k ∈ keys m :=
  List.mem_map.mpr ⟨(k, v), lookup_mem h, rfl⟩

theorem setFail_same {k : GoString} {m : MigMap} {v : migration} {b : Bool}
    (h : lookup k m = some v) (hb : v.fail = b) : setFail k b m = m := by
  induction m with
  | nil => rfl
  | cons e m ih =>
    obtain ⟨k', v'⟩ := e
    by_cases hk : k' = k
    · simp [lookup, hk] at h
      subst h
      simp [setFail, hk, ← hb]
    · simp [lookup, hk] at h
      simp [setFail, hk, ih h]

/-! ## Facts about `sort` -/

theorem mem_insertSorted (less : GoString → GoString → Bool) (x y : GoString)
    (l : List GoString) : y ∈ insertSorted less x l ↔ y = x ∨ y ∈ l := by
  induction l with
  | nil => simp [insertSorted]
  | cons a l ih =>
    by_cases h : less x a = true
    · simp [insertSorted, h]
    · simp [insertSorted, h, ih]
      tauto

theorem mem_sortSlice (less : GoString → GoString → Bool) (y : GoString)
    (l : List GoString) : y ∈ sortSlice less l ↔ y ∈ l := by
  induction l with
  | nil => simp [sortSlice]
  | cons a l ih => simp [sortSlice, mem_insertSorted, ih]

theorem mem_sort (y : GoString) (l : List GoString) (up : Bool) : y ∈ sort l up ↔ y ∈ l := by
  cases up <;> simp [sort, mem_sortSlice]

/-! ## Facts about `getMigrateFiles` -/

theorem buildFound_inv (path : GoString) (version : Int) (files : List GoString) :
    ∀ (found m : MigMap), buildFound path version files found = .ok m →
      ((keys found).Nodup → (keys m).Nodup) ∧
      (∀ k, k ∈ keys m ↔ k ∈ keys found ∨ ∃ f ∈ files, getDBFileName f = k) ∧
      (∀ e ∈ m, e ∈ found ∨ ∃ f ∈ files, e = (getDBFileName f, foundMigration path version f)) ∧
      (∀ f ∈ files, 18 ≤ f.length) := by
  induction files with
  | nil =>
    intro found m h
    simp only [buildFound, Except.ok.injEq] at h
    subst h
    simp
  | cons f fs ih =>
    intro found m h
    by_cases hlen : f.length < 18
    · simp [buildFound, hlen] at h
    · simp only [buildFound, hlen, if_false] at h
      cases hl : lookup (getDBFileName f) found with
      | some v =>
        rw [hl] at h
        obtain ⟨h1, h2, h3, h4⟩ := ih found m h
        refine ⟨h1, ?_, ?_, ?_⟩
        · intro k
          rw [h2 k]
          constructor
          · rintro (hk | ⟨g, hg, hgk⟩)
            · exact Or.inl hk
            · exact Or.inr ⟨g, List.mem_cons_of_mem _ hg, hgk⟩
          · rintro (hk | ⟨g, hg, hgk⟩)
            · exact Or.inl hk
            · rcases List.mem_cons.mp hg with rfl | hg
              · exact Or.inl (hgk ▸ mem_keys_of_lookup hl)
              · exact Or.inr ⟨g, hg, hgk⟩
        · intro e he
          rcases h3 e he with h | ⟨g, hg, hge⟩
          · exact Or.inl h
          · exact Or.inr ⟨g, List.mem_cons_of_mem _ hg, hge⟩
        · intro g hg
          rcases List.mem_cons.mp hg with rfl | hg
          · omega
          · exact h4 g hg
      | none =>
        rw [hl] at h
        obtain ⟨h1, h2, h3, h4⟩ := ih _ m h
        have hnot : getDBFileName f ∉ keys found := lookup_eq_none.mp hl
        refine ⟨?_, ?_, ?_, ?_⟩
        · intro hn
          apply h1
          simp only [keys, List.map_append, List.map_cons, List.map_nil]
          rw [List.nodup_append]
          refine ⟨hn, by simp, ?_⟩
          intro a ha hb
          simp at hb
          subst hb
          exact hnot ha
        · intro k
          rw [h2 k]
          simp only [keys, List.map_append, List.map_cons, List.map_nil, List.mem_append,
            List.mem_cons, List.not_mem_nil, or_false]
          constructor
          · rintro ((hk | hk) | ⟨g, hg, hgk⟩)
            · exact Or.inl hk
            · exact Or.inr ⟨f, Or.inl rfl, hk.symm⟩
            · exact Or.inr ⟨g, Or.inr hg, hgk⟩
          · rintro (hk | ⟨g, hg | hg, hgk⟩)
            · exact Or.inl (Or.inl hk)
            · subst hg
              exact Or.inl (Or.inr hgk.symm)
            · exact Or.inr ⟨g, hg, hgk⟩
        · intro e he
          rcases h3 e he with h | ⟨g, hg, hge⟩
          · rcases List.mem_append.mp h with h | h
            · exact Or.inl h
            · simp at h
              exact Or.inr ⟨f, List.mem_cons_self _ _, h⟩
          · exact Or.inr ⟨g, List.mem_cons_of_mem _ hg, hge⟩
        · intro g hg
          rcases List.mem_cons.mp hg with rfl | hg
          · omega
          · exact h4 g hg

theorem buildFound_foundOk {path : GoString} {version : Int} {files : List GoString}
    {m : MigMap} (h : buildFound path version files [] = .ok m) :
    FoundOk path version files m := by
  obtain ⟨h1, h2, h3, h4⟩ := buildFound_inv path version files [] m h
  refine ⟨h1 (by simp [keys]), ?_, ?_, h4⟩
  · intro k
    rw [h2 k]
    simp [keys]
  · intro e he
    rcases h3 e he with h | h
    · simp at h
    · exact h

theorem buildFound_ok (path : GoString) (version : Int) (files : List GoString)
    (hlen : ∀ f ∈ files, 18 ≤ f.length) :
    ∀ found : MigMap, ∃ m, buildFound path version files found = .ok m := by
  induction files with
  | nil => intro found; exact ⟨found, rfl⟩
  | cons f fs ih =>
    intro found
    have hf : ¬ f.length < 18 := by
      have := hlen f (List.mem_cons_self _ _)
      omega
    have ih := ih (fun g hg => hlen g (List.mem_cons_of_mem _ hg))
    simp only [buildFound, hf, if_false]
    cases lookup (getDBFileName f) found with
    | some v => exact ih found
    | none => exact ih _

theorem assignStored_eq_map (ms : List migration) (found : MigMap) :
    assignStored ms found = found.map fun e => ms.foldl markEntry e := by
  induction ms generalizing found with
  | nil => simp [assignStored]
  | cons v ms ih =>
    have h := ih (markStored v found)
    simp only [assignStored, List.foldl_cons] at h ⊢
    rw [h]
    simp [markStored, markEntry, Function.comp_def]

theorem foldl_markEntry (rows : List Row) (e : GoString × migration) :
    (rows.map scanRow).foldl markEntry e =
      (e.1, { e.2 with
        version := (storedBatch e.2.name rows).getD e.2.version,
        hasMigrated := (storedBatch e.2.name rows).isSome || e.2.hasMigrated }) := by
  induction rows generalizing e with
  | nil => simp [storedBatch]
  | cons r rs ih =>
    simp only [List.map_cons, List.foldl_cons]
    rw [ih]
    by_cases hn : e.2.name = r.name
    · cases hs : storedBatch r.name rs <;>
        simp [markEntry, scanRow, storedBatch, hn, hs]
    · have hn' : ¬ r.name = e.2.name := fun h => hn h.symm
      cases hs : storedBatch e.2.name rs <;>
        simp [markEntry, scanRow, storedBatch, hn, hn', hs]

theorem GetVersion_ok_iff {env : Env} {db : DB} {v : Int} :
    GetVersion env db = .ok v ↔ env.selectOk = true ∧ maxBatch db.rows = some v := by
  by_cases hsel : env.selectOk = true
  · cases hmax : maxBatch db.rows <;> simp [GetVersion, hsel, hmax]
  · simp [GetVersion, hsel]

theorem get_all (env : Env) (db : DB) (v : Int) (h : GetVersion env db = .ok v) :
    get env db false = .ok (db.rows.map scanRow) := by
  simp [get, h, (GetVersion_ok_iff.mp h).1]

theorem getMigrateFiles_eq (env : Env) (db : DB) (files : List GoString) (v : Int)
    (hdir : env.dir = some files) (hv : GetVersion env db = .ok v) :
    getMigrateFiles env db =
      (buildFound env.migrationPath v (sort files true) []).map
        (assignStored (db.rows.map scanRow)) := by
  simp only [getMigrateFiles, getFiles, hdir, hv, get_all env db v hv]
  cases buildFound env.migrationPath v (sort files true) [] <;> rfl

theorem reconciled_of_foundOk {path : GoString} {files : List GoString} {rows : List Row}
    {v : Int} {found : MigMap} (h : FoundOk path v (sort files true) found) :
    Reconciled path files rows v (assignStored (rows.map scanRow) found) := by
  have hkeys : keys (assignStored (rows.map scanRow) found) = keys found := by
    rw [assignStored_eq_map]
    simp only [keys, List.map_map]
    apply List.map_congr_left
    intro e _
    simp [foldl_markEntry]
  refine ⟨hkeys ▸ h.nodup, ?_, ?_⟩
  · intro k
    rw [hkeys, h.mem_keys k]
    constructor
    · rintro ⟨f, hf, hk⟩
      exact ⟨f, (mem_sort f files true).mp hf, hk⟩
    · rintro ⟨f, hf, hk⟩
      exact ⟨f, (mem_sort f files true).mpr hf, hk⟩
  · intro k c hc
    rw [assignStored_eq_map] at hc
    obtain ⟨e, he, hec⟩ := List.mem_map.mp hc
    obtain ⟨f, _, hf⟩ := h.entry e he
    rw [foldl_markEntry] at hec
    subst hf
    simp only [Prod.mk.injEq] at hec
    obtain ⟨rfl, rfl⟩ := hec
    simp [foundMigration]

theorem getMigrateFiles_inv {env : Env} {db : DB} {m : MigMap}
    (h : getMigrateFiles env db = .ok m) :
    ∃ files v, env.dir = some files ∧ env.selectOk = true ∧ GetVersion env db = .ok v ∧
      (∀ f ∈ files, 18 ≤ f.length) ∧ Reconciled env.migrationPath files db.rows v m := by
  cases hdir : env.dir with
  | none => simp [getMigrateFiles, getFiles, hdir] at h
  | some files =>
    cases hv : GetVersion env db with
    | error e => simp [getMigrateFiles, getFiles, hdir, hv] at h
    | ok v =>
      rw [getMigrateFiles_eq env db files v hdir hv] at h
      cases hb : buildFound env.migrationPath v (sort files true) [] with
      | error e => simp [hb, Except.map] at h
      | ok found =>
        simp only [hb, Except.map, Except.ok.injEq] at h
        subst h
        have hf := buildFound_foundOk hb
        refine ⟨files, v, rfl, (GetVersion_ok_iff.mp hv).1, rfl, ?_, reconciled_of_foundOk hf⟩
        intro f hf'
        exact hf.long f ((mem_sort f files true).mpr hf')

theorem getMigrateFiles_ok (env : Env) (db : DB) (files : List GoString) (v : Int)
    (hdir : env.dir = some files) (hv : GetVersion env db = .ok v)
    (hlen : ∀ f ∈ files, 18 ≤ f.length) : ∃ m, getMigrateFiles env db = .ok m := by
  rw [getMigrateFiles_eq env db files v hdir hv]
  obtain ⟨found, hfound⟩ := buildFound_ok env.migrationPath v
    (sort files true) (fun f hf => hlen f ((mem_sort f files true).mp hf)) []
  exact ⟨assignStored (db.rows.map scanRow) found, by simp [hfound, Except.map]⟩

theorem storedBatch_isSome {n : GoString} {rows : List Row} :
    (storedBatch n rows).isSome = true ↔ ∃ r ∈ rows, r.name = n := by
  induction rows with
  | nil => simp [storedBatch]
  | cons r rs ih =>
    cases hs : storedBatch n rs with
    | some b =>
      rw [hs] at ih
      have := ih.mp rfl
      obtain ⟨r', hr', hn⟩ := this
      simp only [storedBatch, hs, Option.isSome_some, true_iff]
      exact ⟨r', List.mem_cons_of_mem _ hr', hn⟩
    | none =>
      rw [hs] at ih
      have hno : ¬ ∃ r ∈ rs, r.name = n := fun h => by simpa using ih.mpr h
      by_cases hr : r.name = n
      · simp [storedBatch, hs, hr]
      · simp only [storedBatch, hs, hr, if_false, Option.isSome_none, Bool.false_eq_true,
          false_iff]
        rintro ⟨r', hr', hn⟩
        rcases List.mem_cons.mp hr' with rfl | hr'
        · exact hr hn
        · exact hno ⟨r', hr', hn⟩

theorem storedBatch_some {n : GoString} {rows : List Row} {b : Int}
    (h : storedBatch n rows = some b) : ∃ r ∈ rows, r.name = n ∧ r.batch = b := by
  induction rows with
  | nil => simp [storedBatch] at h
  | cons r rs ih =>
    cases hs : storedBatch n rs with
    | some b' =>
      simp only [storedBatch, hs, Option.some.injEq] at h
      subst h
      obtain ⟨r', hr', hn⟩ := ih hs
      exact ⟨r', List.mem_cons_of_mem _ hr', hn⟩
    | none =>
      by_cases hr : r.name = n
      · simp only [storedBatch, hs, hr, if_true, Option.some.injEq] at h
        exact ⟨r, List.mem_cons_self _ _, hr, h⟩
      · simp [storedBatch, hs, hr] at h

/-! ## Facts about the loops of `Up` -/

theorem upLoop_rows (env : Env) (ord : List GoString) :
    ∀ (m : MigMap) (db : DB),
      (upLoop env ord m db).db.rows = db.rows ∧ (upLoop env ord m db).db.nextId = db.nextId := by
  induction ord with
  | nil => intro m db; simp [upLoop]
  | cons k ks ih =>
    intro m db
    cases hl : lookup k m with
    | none => simpa [upLoop, hl] using ih m db
    | some v =>
      by_cases hm : v.hasMigrated = true
      · simpa [upLoop, hl, hm] using ih m db
      · by_cases hx : env.fileExists v.pathUp = true
        · cases hr : env.readFile v.pathUp with
          | none => simp [upLoop, hl, hm, hx, hr]
          | some sql =>
            cases he : env.execOk db.journal sql with
            | false => simp [upLoop, hl, hm, hx, hr, run, he]
            | true =>
              simpa [upLoop, hl, hm, hx, hr, run, he] using
                ih (setFail k false m) { db with journal := db.journal ++ [sql] }
        · simp [upLoop, hl, hm, hx]

theorem upLoop_clean (env : Env) (m : MigMap) (hfail : ∀ e ∈ m, e.2.fail = false)
    (ord : List GoString) :
    ∀ db : DB, (upLoop env ord m db).isDirtyMigration = false →
      (upLoop env ord m db).err = none → (upLoop env ord m db).migrations = m := by
  induction ord with
  | nil => intro db _ _; simp [upLoop]
  | cons k ks ih =>
    intro db
    cases hl : lookup k m with
    | none => simpa [upLoop, hl] using ih db
    | some v =>
      by_cases hm : v.hasMigrated = true
      · simpa [upLoop, hl, hm] using ih db
      · by_cases hx : env.fileExists v.pathUp = true
        · cases hr : env.readFile v.pathUp with
          | none => simp [upLoop, hl, hm, hx, hr]
          | some sql =>
            cases he : env.execOk db.journal sql with
            | false => simp [upLoop, hl, hm, hx, hr, run, he]
            | true =>
              have hs : setFail k false m = m := setFail_same hl (hfail _ (lookup_mem hl))
              simpa [upLoop, hl, hm, hx, hr, run, he, hs] using
                ih { db with journal := db.journal ++ [sql] }
        · simp [upLoop, hl, hm, hx]

theorem upLoop_success (env : Env) (m : MigMap) (hfail : ∀ e ∈ m, e.2.fail = false)
    (hfiles : ∀ e ∈ m, e.2.hasMigrated = false →
      env.fileExists e.2.pathUp = true ∧
        ∃ sql, env.readFile e.2.pathUp = some sql ∧ ∀ j, env.execOk j sql = true)
    (ord : List GoString) :
    ∀ db : DB, ∃ db1, upLoop env ord m db = ⟨m, db1, false, none⟩ ∧
      db1.rows = db.rows ∧ db1.nextId = db.nextId := by
  induction ord with
  | nil => intro db; exact ⟨db, by simp [upLoop]⟩
  | cons k ks ih =>
    intro db
    cases hl : lookup k m with
    | none => simpa [upLoop, hl] using ih db
    | some v =>
      by_cases hm : v.hasMigrated = true
      · simpa [upLoop, hl, hm] using ih db
      · obtain ⟨hx, sql, hr, he⟩ := hfiles _ (lookup_mem hl) (by simpa using hm)
        have hs : setFail k false m = m := setFail_same hl (hfail _ (lookup_mem hl))
        obtain ⟨db1, h1, h2, h3⟩ := ih { db with journal := db.journal ++ [sql] }
        exact ⟨db1, by simpa [upLoop, hl, hm, hx, hr, run, he, hs] using h1, h2, h3⟩

theorem upLoop_migrated (env : Env) (m : MigMap) (h : ∀ e ∈ m, e.2.hasMigrated = true)
    (ord : List GoString) (db : DB) : upLoop env ord m db = ⟨m, db, false, none⟩ := by
  induction ord with
  | nil => simp [upLoop]
  | cons k ks ih =>
    cases hl : lookup k m with
    | none => simpa [upLoop, hl] using ih
    | some v =>
      have hv : v.hasMigrated = true := h _ (lookup_mem hl)
      simpa [upLoop, hl, hv] using ih

theorem createLoop_migrated (env : Env) (m : MigMap) (h : ∀ e ∈ m, e.2.hasMigrated = true)
    (ord : List GoString) (db : DB) : createLoop env ord m db = (db, none) := by
  induction ord with
  | nil => simp [createLoop]
  | cons k ks ih =>
    cases hl : lookup k m with
    | none => simpa [createLoop, hl] using ih
    | some v =>
      have hv : v.hasMigrated = true := h _ (lookup_mem hl)
      simpa [createLoop, hl, hv] using ih

theorem createLoop_inv (env : Env) (m : MigMap) (ord : List GoString) :
    ∀ db db1 : DB, createLoop env ord m db = (db1, none) →
      db1.journal = db.journal ∧ (∀ r ∈ db.rows, r ∈ db1.rows) ∧
      ∀ k ∈ ord, ∀ c, lookup k m = some c → c.hasMigrated = false →
        ∃ r ∈ db1.rows, r.name = c.name := by
  induction ord with
  | nil =>
    intro db db1 h
    simp only [createLoop, Prod.mk.injEq, and_true] at h
    subst h
    simp
  | cons k ks ih =>
    intro db db1 h
    cases hl : lookup k m with
    | none =>
      simp only [createLoop, hl] at h
      obtain ⟨h1, h2, h3⟩ := ih db db1 h
      refine ⟨h1, h2, ?_⟩
      intro k' hk' c hc hp
      rcases List.mem_cons.mp hk' with rfl | hk'
      · rw [hl] at hc; cases hc
      · exact h3 k' hk' c hc hp
    | some v =>
      by_cases hm : v.hasMigrated = true
      · simp only [createLoop, hl, hm, Bool.not_true, Bool.false_eq_true, if_false] at h
        obtain ⟨h1, h2, h3⟩ := ih db db1 h
        refine ⟨h1, h2, ?_⟩
        intro k' hk' c hc hp
        rcases List.mem_cons.mp hk' with rfl | hk'
        · rw [hl] at hc; cases hc; simp [hp] at hm
        · exact h3 k' hk' c hc hp
      · cases hi : env.insertOk v.name v.version with
        | false => simp [createLoop, hl, hm, insertRow, hi] at h
        | true =>
          simp only [createLoop, hl, hm, insertRow, hi, if_true, Bool.not_eq_true,
            Bool.not_false] at h
          obtain ⟨h1, h2, h3⟩ := ih _ db1 h
          refine ⟨h1, fun r hr => h2 r (by simp [hr]), ?_⟩
          intro k' hk' c hc hp
          rcases List.mem_cons.mp hk' with rfl | hk'
          · rw [hl] at hc
            cases hc
            exact ⟨_, h2 ⟨db.nextId, v.name, v.version⟩ (by simp), rfl⟩
          · exact h3 k' hk' c hc hp

theorem createLoop_success (env : Env) (m : MigMap) (hins : ∀ n b, env.insertOk n b = true)
    (ord : List GoString) :
    ∀ db : DB, ∃ new : List Row,
      createLoop env ord m db = (⟨db.rows ++ new, db.nextId + new.length, db.journal⟩, none) ∧
      new.map (fun r => (r.name, r.batch)) = ord.filterMap (insertedBy m) := by
  induction ord with
  | nil => intro db; exact ⟨[], by simp [createLoop]⟩
  | cons k ks ih =>
    intro db
    cases hl : lookup k m with
    | none =>
      obtain ⟨new, h1, h2⟩ := ih db
      exact ⟨new, by simpa [createLoop, hl] using h1, by simp [insertedBy, hl, h2]⟩
    | some v =>
      by_cases hm : v.hasMigrated = true
      · obtain ⟨new, h1, h2⟩ := ih db
        exact ⟨new, by simpa [createLoop, hl, hm] using h1, by simp [insertedBy, hl, hm, h2]⟩
      · obtain ⟨new, h1, h2⟩ :=
          ih ⟨db.rows ++ [⟨db.nextId, v.name, v.version⟩], db.nextId + 1, db.journal⟩
        refine ⟨⟨db.nextId, v.name, v.version⟩ :: new, ?_, ?_⟩
        · simp only [createLoop, hl, hm, insertRow, hins, if_true, Bool.not_eq_true,
            Bool.not_false]
          rw [h1]
          simp only [List.append_assoc, List.singleton_append, List.length_cons, Nat.cast_add,
            Nat.cast_one, Prod.mk.injEq, and_true, DB.mk.injEq, true_and]
          omega
        · simp [insertedBy, hl, hm, h2]

theorem filterMap_insertedBy_keys (m : MigMap) (hn : (keys m).Nodup) :
    (keys m).filterMap (insertedBy m) =
      (m.filter fun e => !e.2.hasMigrated).map fun e => (e.2.name, e.2.version) := by
  have h1 : (keys m).filterMap (insertedBy m)
      = m.filterMap (fun e => if e.2.hasMigrated then none else some (e.2.name, e.2.version)) := by
    simp only [keys, List.filterMap_map]
    apply List.filterMap_congr
    intro e he
    have := lookup_of_mem (k := e.1) (v := e.2) hn he
    simp [insertedBy, this]
  rw [h1]
  clear h1 hn
  induction m with
  | nil => rfl
  | cons e m ih =>
    by_cases h : e.2.hasMigrated = true
    · simp [List.filterMap_cons, List.filter_cons, h, ih]
    · simp [List.filterMap_cons, List.filter_cons, h, ih]

/-! ## Facts about `GetVersion` -/

theorem maxBatch_spec (rows : List Row) :
    (rows = [] ∧ maxBatch rows = none) ∨
      ∃ M, maxBatch rows = some M ∧ (∀ r ∈ rows, r.batch ≤ M) ∧ ∃ r ∈ rows, r.batch = M := by
  induction rows with
  | nil => exact Or.inl ⟨rfl, rfl⟩
  | cons r rs ih =>
    right
    rcases ih with ⟨h1, h2⟩ | ⟨M, h1, h2, r', hr', h3⟩
    · subst h1
      exact ⟨r.batch, by simp [maxBatch], by simp, r, by simp, rfl⟩
    · refine ⟨max r.batch M, by simp [maxBatch, h1], ?_, ?_⟩
      · intro x hx
        rcases List.mem_cons.mp hx with rfl | hx
        · exact le_max_left _ _
        · exact le_trans (h2 x hx) (le_max_right _ _)
      · rcases le_total r.batch M with h | h
        · exact ⟨r', List.mem_cons_of_mem _ hr', by rw [h3, max_eq_right h]⟩
        · exact ⟨r, List.mem_cons_self _ _, by rw [max_eq_left h]⟩

theorem maxBatch_le {rows : List Row} {r : Row} {M : Int} (h : maxBatch rows = some M)
    (hr : r ∈ rows) : r.batch ≤ M := by
  rcases maxBatch_spec rows with ⟨_, h1⟩ | ⟨M', h1, h2, _⟩
  · rw [h1] at h; cases h
  · rw [h1] at h; cases h; exact h2 r hr

theorem maxBatch_of_mem {rows : List Row} {r : Row} (hr : r ∈ rows) :
    ∃ M, maxBatch rows = some M := by
  rcases maxBatch_spec rows with ⟨h1, _⟩ | ⟨M, h1, _⟩
  · subst h1; simp at hr
  · exact ⟨M, h1⟩

theorem maxBatch_append_new (rows new : List Row) (v : Int) (hv : maxBatch rows = some v)
    (hnew : new ≠ []) (hb : ∀ r ∈ new, r.batch = v + 1) :
    maxBatch (rows ++ new) = some (v + 1) := by
  obtain ⟨n, hn⟩ := List.exists_mem_of_ne_nil new hnew
  rcases maxBatch_spec (rows ++ new) with ⟨h1, _⟩ | ⟨M, h1, h2, r, hr, h3⟩
  · simp [hnew] at h1
  · rw [h1]
    congr 1
    have hge : v + 1 ≤ M := by
      rw [← hb n hn]
      exact h2 n (List.mem_append_right _ hn)
    rcases List.mem_append.mp hr with hr | hr
    · have := maxBatch_le hv hr
      omega
    · rw [← h3, hb r hr]

/-- Reconciliation on a table with rows, where `GetVersion` returns a version `v`: on a
listing `files` of names of at least 18 bytes, `getMigrateFiles` returns a
map with exactly one candidate for each canonical name of a listed file and no other
(so a pair collapses and a row without a file adds nothing).  A candidate whose name
is carried by a stored row has `hasMigrated = true` and the batch of such a row (the
last one, should several carry the name) as `version`; any other candidate has
`hasMigrated = false` and `version = v + 1`, `v` being the current version. -/
theorem getMigrateFiles_reconciles (env : Env) (db : DB) (files : List GoString) (v : Int)
    (hdir : env.dir = some files) (hv : GetVersion env db = .ok v)
    (hlen : ∀ f ∈ files, 18 ≤ f.length) :
    ∃ m, getMigrateFiles env db = .ok m ∧
      (keys m).Nodup ∧
      (∀ k, k ∈ keys m ↔ ∃ f ∈ files, getDBFileName f = k) ∧
      ∀ k c, (k, c) ∈ m →
        c.name = k ∧
        ((∃ r ∈ db.rows, r.name = k) →
          c.hasMigrated = true ∧ storedBatch k db.rows = some c.version ∧
            ∃ r ∈ db.rows, r.name = k ∧ c.version = r.batch) ∧
        ((∀ r ∈ db.rows, r.name ≠ k) → c.hasMigrated = false ∧ c.version = v + 1) := by
  obtain ⟨m, hm⟩ := getMigrateFiles_ok env db files v hdir hv hlen
  obtain ⟨files', v', hdir', _, hv', _, hrec⟩ := getMigrateFiles_inv hm
  have hf : files' = files := by rw [hdir] at hdir'; cases hdir'; rfl
  have hvv : v' = v := by rw [hv] at hv'; cases hv'; rfl
  subst hf hvv
  refine ⟨m, hm, hrec.nodup, hrec.mem_keys, ?_⟩
  intro k c hc
  obtain ⟨h1, _, _, _, h5, h6⟩ := hrec.entry k c hc
  refine ⟨h1, ?_, ?_⟩
  · intro hex
    have hsome := storedBatch_isSome.mpr hex
    obtain ⟨b, hb⟩ := Option.isSome_iff_exists.mp hsome
    rw [hb] at h5 h6
    simp only [Option.getD_some] at h6
    subst h6
    obtain ⟨r, hr, hn, hbt⟩ := storedBatch_some hb
    exact ⟨by simpa using h5, hb, r, hr, hn, hbt.symm⟩
  · intro hno
    have hnone : storedBatch k db.rows = none := by
      cases hs : storedBatch k db.rows with
      | none => rfl
      | some b =>
        obtain ⟨r, hr, hn, _⟩ := storedBatch_some hs
        exact absurd hn (hno r hr)
    rw [hnone] at h5 h6
    exact ⟨by simpa using h5, by simpa using h6⟩

/-- The directory of the scenario on a table in which `init` is recorded. -/
theorem getMigrateFiles_reconciles_witness :
    ∃ m, getMigrateFiles scenario initApplied = .ok m ∧
      (keys m).Nodup ∧
      (∀ k, k ∈ keys m ↔
        ∃ f ∈ (pairOf nameA "a" ++ pairOf nameB "b").map Prod.fst, getDBFileName f = k) ∧
      ∀ k c, (k, c) ∈ m →
        c.name = k ∧
        ((∃ r ∈ initApplied.rows, r.name = k) →
          c.hasMigrated = true ∧ storedBatch k initApplied.rows = some c.version ∧
            ∃ r ∈ initApplied.rows, r.name = k ∧ c.version = r.batch) ∧
        ((∀ r ∈ initApplied.rows, r.name ≠ k) → c.hasMigrated = false ∧ c.version = 1 + 1) :=
  getMigrateFiles_reconciles scenario initApplied
    ((pairOf nameA "a" ++ pairOf nameB "b").map Prod.fst) 1 (by rfl) (by rfl) (by decide)

/-! ## `Up` -/

theorem insertedBy_batch {path : GoString} {files : List GoString} {rows : List Row} {v : Int}
    {m : MigMap} (hrec : Reconciled path files rows v m) {k n : GoString} {b : Int}
    (h : insertedBy m k = some (n, b)) : n = k ∧ b = v + 1 := by
  cases hl : lookup k m with
  | none => simp [insertedBy, hl] at h
  | some c =>
    obtain ⟨h1, _, _, _, h5, h6⟩ := hrec.entry k c (lookup_mem hl)
    by_cases hm : c.hasMigrated = true
    · simp [insertedBy, hl, hm] at h
    · simp only [insertedBy, hl, hm, Bool.false_eq_true, if_false, Option.some.injEq,
        Prod.mk.injEq] at h
      have hnone : storedBatch k rows = none := by
        cases hs : storedBatch k rows with
        | none => rfl
        | some x => rw [hs] at h5; simp [h5] at hm
      rw [hnone] at h6
      exact ⟨by rw [← h.1, h1], by rw [← h.2, h6]; rfl⟩

/-- `Up` on a table with rows, where `GetVersion` returns a version `v`: when at least
one migration is pending and every pending up-file exists, reads and executes, `Up`
returns no error, appends exactly one row per pending migration name
to the table and nothing else, gives every new row the batch `v + 1`, where `v` is the
version before the call, and `GetVersion` afterwards is `v + 1`. -/
theorem Up_applies_pending (env : Env) (sch : Sched) (db : DB) (m : MigMap) (v : Int)
    (hm : getMigrateFiles env db = .ok m) (hv : GetVersion env db = .ok v)
    (hcreate : sch.create.Perm (keys m))
    (hN : pendingKeys m ≠ [])
    (hfiles : ∀ e ∈ m, e.2.hasMigrated = false →
      env.fileExists e.2.pathUp = true ∧
        ∃ sql, env.readFile e.2.pathUp = some sql ∧ ∀ j, env.execOk j sql = true)
    (hins : ∀ n b, env.insertOk n b = true) :
    ∃ new : List Row,
      (Up env sch db).2 = none ∧
      (Up env sch db).1.rows = db.rows ++ new ∧
      (new.map fun r => r.name).Perm (pendingKeys m) ∧
      new.length = (pendingKeys m).length ∧
      (∀ r ∈ new, r.batch = v + 1) ∧
      GetVersion env (Up env sch db).1 = .ok (v + 1) := by
  obtain ⟨files, v', hdir, hsel, hv', hlen, hrec⟩ := getMigrateFiles_inv hm
  have hvv : v' = v := by rw [hv] at hv'; cases hv'; rfl
  subst hvv
  have hvmax : maxBatch db.rows = some v' := (GetVersion_ok_iff.mp hv).2
  have hfail : ∀ e ∈ m, e.2.fail = false := fun e he => (hrec.entry e.1 e.2 he).2.1
  obtain ⟨db1, h1, h2, h3⟩ := upLoop_success env m hfail hfiles sch.main db
  obtain ⟨new, h4, h5⟩ := createLoop_success env m hins sch.create db1
  have hUp : Up env sch db = (⟨db.rows ++ new, db.nextId + new.length, db1.journal⟩, none) := by
    simp only [Up, hm, h1, create, h4, h2, h3]
  have hperm : (new.map fun r => r.name).Perm (pendingKeys m) := by
    have e1 : (new.map fun r => r.name) = (sch.create.filterMap (insertedBy m)).map Prod.fst := by
      rw [← h5]; simp
    have e2 : pendingKeys m = ((keys m).filterMap (insertedBy m)).map Prod.fst := by
      rw [filterMap_insertedBy_keys m hrec.nodup]
      simp only [pendingKeys, List.map_map]
      apply List.map_congr_left
      intro e he
      simp [(hrec.entry e.1 e.2 (List.mem_of_mem_filter he)).1]
    rw [e1, e2]
    exact (hcreate.filterMap _).map _
  have hbatch : ∀ r ∈ new, r.batch = v' + 1 := by
    intro r hr
    have : (r.name, r.batch) ∈ sch.create.filterMap (insertedBy m) := by
      rw [← h5]; exact List.mem_map.mpr ⟨r, hr, rfl⟩
    obtain ⟨k, _, hk⟩ := List.mem_filterMap.mp this
    exact (insertedBy_batch hrec hk).2
  have hne : new ≠ [] := by
    intro h
    subst h
    exact hN (List.Perm.eq_nil (by simpa using hperm.symm))
  refine ⟨new, by rw [hUp], by rw [hUp], hperm, ?_, hbatch, ?_⟩
  · simpa using hperm.length_eq
  · rw [hUp]
    simp only [GetVersion, hsel, if_true]
    rw [maxBatch_append_new db.rows new v' hvmax hne hbatch]

theorem threePairs_files (e : GoString × migration) (he : e ∈ threePairsMap) :
    threePairs.fileExists e.2.pathUp = true ∧
      ∃ sql, threePairs.readFile e.2.pathUp = some sql ∧ ∀ j, threePairs.execOk j sql = true := by
  simp only [threePairsMap, List.mem_cons, List.mem_singleton, List.not_mem_nil, or_false] at he
  rcases he with rfl | rfl | rfl
  · exact ⟨by decide, ofAscii "UP c", by decide, fun _ => rfl⟩
  · exact ⟨by decide, ofAscii "UP b", by decide, fun _ => rfl⟩
  · exact ⟨by decide, ofAscii "UP a", by decide, fun _ => rfl⟩

/-- The pairs of `init`, `add_col` and `add_idx` on a table in which `init` is recorded. -/
theorem Up_applies_pending_on_initApplied :
    ∃ new : List Row,
      (Up threePairs threeNewestFirst initApplied).2 = none ∧
      (Up threePairs threeNewestFirst initApplied).1.rows = initApplied.rows ++ new ∧
      (new.map fun r => r.name).Perm (pendingKeys threePairsMap) ∧
      new.length = (pendingKeys threePairsMap).length ∧
      (∀ r ∈ new, r.batch = 1 + 1) ∧
      GetVersion threePairs (Up threePairs threeNewestFirst initApplied).1 = .ok (1 + 1) :=
  Up_applies_pending threePairs threeNewestFirst initApplied threePairsMap 1 (by rfl) (by rfl)
    (by decide) (by decide) (fun e he _ => threePairs_files e he) (fun _ _ => rfl)

/-- C4, as stated, fails: `init` is recorded and the database rejects the up-file of
`add_idx`.  The first `Up` applies `add_key`, fails on `add_idx`, compensates and returns
`nil` without recording anything; the second `Up` returns `nil` as well and hands the
same statements to the database once more. -/
theorem Up_twice_after_dirty_run :
    (Up addIdxRejected fromInit initApplied).2 = none ∧
    (Up addIdxRejected fromInit initApplied).1.journal
      = [ofAscii "UP d", ofAscii "UP c", ofAscii "DOWN a", ofAscii "DOWN d", ofAscii "DOWN b"] ∧
    (Up addIdxRejected fromInit (Up addIdxRejected fromInit initApplied).1).2 = none ∧
    (Up addIdxRejected fromInit (Up addIdxRejected fromInit initApplied).1).1.journal
      = [ofAscii "UP d", ofAscii "UP c", ofAscii "DOWN a", ofAscii "DOWN d", ofAscii "DOWN b",
         ofAscii "UP d", ofAscii "UP c", ofAscii "DOWN a", ofAscii "DOWN d", ofAscii "DOWN b"] := by
  decide

/-- C4, amended: when the first `Up` returns `nil` and none of its up-files failed to
read or execute (its main loop did not end dirty), a second `Up` on the database it
left, with the same directory and under any iteration order, returns `nil` and leaves
that database as it is: no statement is handed to `run`, no row is inserted and the
version is the same. -/
theorem Up_twice_noop (env : Env) (sch sch2 : Sched) (db : DB) (m : MigMap)
    (hm : getMigrateFiles env db = .ok m)
    (hcreate : sch.create.Perm (keys m))
    (hclean : (upLoop env sch.main m db).isDirtyMigration = false)
    (hok : (Up env sch db).2 = none) :
    Up env sch2 (Up env sch db).1 = ((Up env sch db).1, none) := by
  obtain ⟨files, v, hdir, hsel, hv, hlen, hrec⟩ := getMigrateFiles_inv hm
  have hfail : ∀ e ∈ m, e.2.fail = false := fun e he => (hrec.entry e.1 e.2 he).2.1
  have hrows := (upLoop_rows env sch.main m db).1
  have hmig := upLoop_clean env m hfail sch.main db hclean
  cases hu : upLoop env sch.main m db with
  | mk m1 db1 dirty err =>
    rw [hu] at hclean hrows hmig
    simp only at hclean hrows hmig
    subst hclean
    cases err with
    | some e => simp [Up, hm, hu] at hok
    | none =>
      have hm1 : m1 = m := hmig rfl
      subst hm1
      have hUp : Up env sch db = createLoop env sch.create m1 db1 := by
        simp [Up, hm, hu, create]
      rw [hUp] at hok ⊢
      cases hc : createLoop env sch.create m1 db1 with
      | mk db2 e =>
        rw [hc] at hok
        simp only at hok
        subst hok
        obtain ⟨_, hsub, hins⟩ := createLoop_inv env m1 sch.create db1 db2 hc
        have hv2 : ∃ v2, GetVersion env db2 = .ok v2 := by
          obtain ⟨r, hr⟩ : ∃ r, r ∈ db.rows := by
            rcases maxBatch_spec db.rows with ⟨_, h0⟩ | ⟨_, _, _, r, hr, _⟩
            · rw [(GetVersion_ok_iff.mp hv).2] at h0; cases h0
            · exact ⟨r, hr⟩
          obtain ⟨M, hM⟩ := maxBatch_of_mem (hsub r (hrows ▸ hr))
          exact ⟨M, GetVersion_ok_iff.mpr ⟨hsel, hM⟩⟩
        obtain ⟨v2', hv2'⟩ := hv2
        obtain ⟨m2, hm2⟩ := getMigrateFiles_ok env db2 files v2' hdir hv2' hlen
        obtain ⟨files2, v2, hdir2, _, _, _, hrec2⟩ := getMigrateFiles_inv hm2
        have hf : files2 = files := by rw [hdir] at hdir2; cases hdir2; rfl
        subst hf
        have hall : ∀ e ∈ m2, e.2.hasMigrated = true := by
          intro e he
          obtain ⟨_, _, _, _, h5, _⟩ := hrec2.entry e.1 e.2 he
          rw [h5, storedBatch_isSome]
          have hk : e.1 ∈ keys m1 :=
            (hrec.mem_keys e.1).mpr ((hrec2.mem_keys e.1).mp (List.mem_map.mpr ⟨e, he, rfl⟩))
          obtain ⟨e0, he0, hk0⟩ := List.mem_map.mp hk
          obtain ⟨k0, c0⟩ := e0
          simp only at hk0
          subst hk0
          obtain ⟨g1, _, _, _, g5, _⟩ := hrec.entry e.1 c0 he0
          by_cases hmg : c0.hasMigrated = true
          · rw [g5, storedBatch_isSome] at hmg
            obtain ⟨r, hr, hn⟩ := hmg
            exact ⟨r, hsub r (hrows ▸ hr), hn⟩
          · obtain ⟨r, hr, hn⟩ := hins e.1 (hcreate.mem_iff.mpr hk) c0
              (lookup_of_mem hrec.nodup he0) (by simpa using hmg)
            exact ⟨r, hr, hn.trans g1⟩
        simp [Up, hm2, upLoop_migrated env m2 hall, create, createLoop_migrated env m2 hall]

/-- The pairs of `init`, `add_col` and `add_idx` on a table in which `init` is recorded:
the first `Up` records `add_idx` and `add_col`, the second changes nothing. -/
theorem Up_twice_noop_witness :
    Up threePairs fromAddCol (Up threePairs threeNewestFirst initApplied).1
      = ((Up threePairs threeNewestFirst initApplied).1, none) :=
  Up_twice_noop threePairs threeNewestFirst fromAddCol initApplied threePairsMap (by rfl)
    (by decide) (by decide) (by decide)

/-! ## `Rollback` -/

theorem mem_selected {m : MigMap} {v : Int} {ord : List GoString} {k : GoString} :
    k ∈ selected m v ord ↔ k ∈ ord ∧ ∃ c, lookup k m = some c ∧ c.version = v := by
  simp only [selected, List.mem_filter]
  cases hl : lookup k m <;> simp

theorem rollbackLoop_success (env : Env) (m : MigMap) (v : Int)
    (hsel : ∀ k c, lookup k m = some c → c.version = v →
      c.name = k ∧ c.pathDown = env.migrationPath ++ slash ++ k ++ downSuffix ∧
      env.fileExists c.pathDown = true ∧
      (∃ sql, env.readFile c.pathDown = some sql ∧ ∀ j, env.execOk j sql = true) ∧
      ∀ rows, env.execDelete (deleteSql k) rows = some (rows.filter fun x => x.name ≠ k))
    (ord : List GoString) :
    ∀ (db : DB) (hrb : Bool), rollbackLoop env v ord m db hrb =
      ⟨⟨db.rows.filter (fun r => r.name ∉ selected m v ord), db.nextId,
          db.journal ++ (selected m v ord).map (downBody env)⟩, hrb, none⟩ := by
  induction ord with
  | nil => intro db hrb; simp [rollbackLoop, selected]
  | cons k ks ih =>
    intro db hrb
    cases hl : lookup k m with
    | none =>
      have e : selected m v (k :: ks) = selected m v ks := by
        simp [selected, List.filter_cons, hl]
      rw [e]
      simpa [rollbackLoop, hl] using ih db hrb
    | some c =>
      by_cases hv : c.version = v
      · obtain ⟨h1, h2, h3, ⟨sql, h4, h5⟩, h6⟩ := hsel k c hl hv
        have e : selected m v (k :: ks) = k :: selected m v ks := by
          simp [selected, List.filter_cons, hl, hv]
        have hb : downBody env k = sql := by
          rw [h2] at h4
          unfold downBody
          rw [h4]
          rfl
        rw [e]
        simp only [rollbackLoop, hl, hv, if_true, h3, Bool.not_true, Bool.false_eq_true,
          if_false, h4, run, h5, delete, h6, h1]
        rw [ih]
        simp only [List.filter_filter, List.map_cons, hb, List.append_assoc,
          List.singleton_append, List.mem_cons, not_or, RollbackLoop.mk.injEq, DB.mk.injEq,
          and_true, true_and]
        apply List.filter_congr
        intro r _
        by_cases g1 : r.name = k <;> by_cases g2 : r.name ∈ selected m v ks <;> simp [g1, g2]
      · have e : selected m v (k :: ks) = selected m v ks := by
          simp [selected, List.filter_cons, hl, hv]
        rw [e]
        simpa [rollbackLoop, hl, hv] using ih db hrb

theorem storedBatch_of_nodup {rows : List Row} (hn : (rows.map fun r => r.name).Nodup)
    {r : Row} (hr : r ∈ rows) : storedBatch r.name rows = some r.batch := by
  induction rows with
  | nil => simp at hr
  | cons x xs ih =>
    simp only [List.map_cons, List.nodup_cons, List.mem_map, not_exists, not_and] at hn
    rcases List.mem_cons.mp hr with rfl | hr
    · have hnone : storedBatch r.name xs = none := by
        cases hs : storedBatch r.name xs with
        | none => rfl
        | some b =>
          obtain ⟨y, hy, hyn, _⟩ := storedBatch_some hs
          exact absurd hyn (hn.1 y hy)
      simp [storedBatch, hnone]
    · simp [storedBatch, ih hn.2 hr]

/-- C5, as stated, fails.  First input: the table holds the name `init` twice, in batch 1
and in batch 2; `Rollback` reverts `init` and its `DELETE` removes both rows, the row of
the smaller batch included.  Second input: `init` is recorded and the database fails
the `DELETE`; `Rollback` runs the down-file, returns `nil`, and the row of the current
batch remains. -/
theorem Rollback_deletes_by_name :
    GetVersion scenario initTwice = .ok 2 ∧
    Rollback scenario [nameB, nameA] initTwice = (⟨[], 3, [ofAscii "DOWN a"]⟩, none) ∧
    Rollback deleteRejected [nameB, nameA] initApplied
      = (⟨[⟨1, nameA, 1⟩], 2, [ofAscii "DOWN a"]⟩, none) := by
  refine ⟨by rfl, by decide, by decide⟩

/-- C5, amended: when the names in the table are unique, every row of the current batch
`v` belongs to a migration of the directory whose down-file exists, reads and executes,
and the database executes the `DELETE` that the code builds for it as the removal of
the rows carrying that name, `Rollback` returns `nil`, hands to `run` exactly the
down-files of the rows of batch `v` (in the order of the visit), and leaves the table
with exactly those rows removed: no row of batch `v` remains and every other row is
unchanged. -/
theorem Rollback_reverts_batch (env : Env) (ord : List GoString) (db : DB) (m : MigMap)
    (v : Int)
    (hm : getMigrateFiles env db = .ok m) (hv : GetVersion env db = .ok v)
    (hord : ord.Perm (keys m))
    (hnames : (db.rows.map fun r => r.name).Nodup)
    (hfiles : ∀ r ∈ db.rows, r.batch = v →
      r.name ∈ keys m ∧
      env.fileExists (env.migrationPath ++ slash ++ r.name ++ downSuffix) = true ∧
      (∃ sql, env.readFile (env.migrationPath ++ slash ++ r.name ++ downSuffix) = some sql ∧
        ∀ j, env.execOk j sql = true) ∧
      ∀ rows, env.execDelete (deleteSql r.name) rows
        = some (rows.filter fun x => x.name ≠ r.name)) :
    ∃ done : List GoString,
      done.Perm ((db.rows.filter fun r => r.batch = v).map fun r => r.name) ∧
      Rollback env ord db =
        (⟨db.rows.filter (fun r => r.batch ≠ v), db.nextId,
            db.journal ++ done.map (downBody env)⟩, none) := by
  obtain ⟨files, v', _, _, hv', _, hrec⟩ := getMigrateFiles_inv hm
  have hvv : v' = v := by rw [hv] at hv'; cases hv'; rfl
  subst hvv
  -- a candidate carries the version `v'` exactly when a row of batch `v'` carries its name
  have hstored : ∀ k c, lookup k m = some c → c.version = v' →
      ∃ r ∈ db.rows, r.name = k ∧ r.batch = v' := by
    intro k c hl hc
    obtain ⟨_, _, _, _, _, h6⟩ := hrec.entry k c (lookup_mem hl)
    cases hs : storedBatch k db.rows with
    | none => rw [hs] at h6; simp at h6; omega
    | some b =>
      rw [hs] at h6
      simp only [Option.getD_some] at h6
      obtain ⟨r, hr, hn, hb⟩ := storedBatch_some hs
      exact ⟨r, hr, hn, by omega⟩
  have hcand : ∀ r ∈ db.rows, r.batch = v' →
      r.name ∈ ord ∧ ∃ c, lookup r.name m = some c ∧ c.version = v' := by
    intro r hr hb
    obtain ⟨hk, _⟩ := hfiles r hr hb
    obtain ⟨e, he, hek⟩ := List.mem_map.mp hk
    obtain ⟨k, c⟩ := e
    simp only at hek
    subst hek
    obtain ⟨_, _, _, _, _, h6⟩ := hrec.entry r.name c he
    refine ⟨hord.mem_iff.mpr hk, c, lookup_of_mem hrec.nodup he, ?_⟩
    rw [h6, storedBatch_of_nodup hnames hr, hb]
    rfl
  have hsel : ∀ k c, lookup k m = some c → c.version = v' →
      c.name = k ∧ c.pathDown = env.migrationPath ++ slash ++ k ++ downSuffix ∧
      env.fileExists c.pathDown = true ∧
      (∃ sql, env.readFile c.pathDown = some sql ∧ ∀ j, env.execOk j sql = true) ∧
      ∀ rows, env.execDelete (deleteSql k) rows = some (rows.filter fun x => x.name ≠ k) := by
    intro k c hl hc
    obtain ⟨h1, _, _, h4, _, _⟩ := hrec.entry k c (lookup_mem hl)
    obtain ⟨r, hr, hn, hb⟩ := hstored k c hl hc
    obtain ⟨_, g1, g2, g3⟩ := hfiles r hr hb
    rw [hn] at g1 g2 g3
    exact ⟨h1, h4, by rw [h4]; exact g1, by rw [h4]; exact g2, g3⟩
  refine ⟨selected m v' ord, ?_, ?_⟩
  · apply (List.perm_ext_iff_of_nodup ((hord.nodup_iff.mpr hrec.nodup).filter _)
      (hnames.sublist ((List.filter_sublist _).map _))).mpr
    intro k
    show k ∈ selected m v' ord ↔ _
    rw [mem_selected]
    constructor
    · rintro ⟨_, c, hl, hc⟩
      obtain ⟨r, hr, hn, hb⟩ := hstored k c hl hc
      exact List.mem_map.mpr ⟨r, List.mem_filter.mpr ⟨hr, by simpa using hb⟩, hn⟩
    · intro hk
      obtain ⟨r, hr, hn⟩ := List.mem_map.mp hk
      obtain ⟨hr, hb⟩ := List.mem_filter.mp hr
      subst hn
      exact hcand r hr (by simpa using hb)
  · have hfilter : db.rows.filter (fun r => r.name ∉ selected m v' ord)
        = db.rows.filter (fun r => r.batch ≠ v') := by
      apply List.filter_congr
      intro r hr
      by_cases hb : r.batch = v'
      · have := mem_selected.mpr (hcand r hr hb)
        simp [hb, this]
      · have : r.name ∉ selected m v' ord := by
          intro hmem
          obtain ⟨_, c, hl, hc⟩ := mem_selected.mp hmem
          obtain ⟨r', hr', hn, hb'⟩ := hstored r.name c hl hc
          have h1 := storedBatch_of_nodup hnames hr
          have h2 := storedBatch_of_nodup hnames hr'
          rw [hn, h1] at h2
          simp only [Option.some.injEq] at h2
          omega
        simp [hb, this]
    simp only [Rollback, hm, hv, rollbackLoop_success env m v' hsel ord db true, hfilter]

/-- The pairs of `init`, `add_col` and `add_idx` on a table that records `init` in batch 1
and `add_col`, `add_idx` in batch 2: `Rollback` reverts the two of batch 2 and leaves
the row of `init`. -/
theorem Rollback_reverts_batch_witness :
    ∃ done : List GoString,
      done.Perm ((threeApplied.rows.filter fun r => r.batch = 2).map fun r => r.name) ∧
      Rollback threePairs [nameB, nameA, nameC] threeApplied =
        (⟨threeApplied.rows.filter (fun r => r.batch ≠ 2), threeApplied.nextId,
            threeApplied.journal ++ done.map (downBody threePairs)⟩, none) :=
  Rollback_reverts_batch threePairs [nameB, nameA, nameC] threeApplied
    [(nameC, { foundMigration (ofAscii "db") 2 (nameC ++ upSuffix) with
                version := 2, hasMigrated := true }),
     (nameB, { foundMigration (ofAscii "db") 2 (nameB ++ upSuffix) with
                version := 2, hasMigrated := true }),
     (nameA, { foundMigration (ofAscii "db") 2 (nameA ++ upSuffix) with
                version := 1, hasMigrated := true })]
    2 (by rfl) (by rfl) (by decide) (by decide)
    (by
      intro r hr hb
      simp only [threeApplied, List.mem_cons, List.mem_singleton, List.not_mem_nil,
        or_false] at hr
      rcases hr with rfl | rfl | rfl
      · exact absurd hb (by decide)
      · exact ⟨by decide, by decide, ⟨ofAscii "DOWN c", by decide, fun _ => rfl⟩, fun _ => rfl⟩
      · exact ⟨by decide, by decide, ⟨ofAscii "DOWN b", by decide, fun _ => rfl⟩, fun _ => rfl⟩)

/-! ## The names in the table stay unique -/

theorem sweepLoop_rows (env : Env) (ord : List GoString) (m : MigMap) :
    ∀ db : DB, (sweepLoop env ord m db).rows = db.rows := by
  induction ord with
  | nil => intro db; rfl
  | cons k ks ih =>
    intro db
    cases hl : lookup k m with
    | none => simpa [sweepLoop, hl] using ih db
    | some c =>
      by_cases hf : c.fail = true
      · simpa [sweepLoop, hl, hf] using ih db
      · simp only [sweepLoop, hl, hf, Bool.not_false, if_true, Bool.false_eq_true,
          Bool.not_eq_true]
        rw [ih]
        rfl

theorem createLoop_rows (env : Env) (m : MigMap) (ord : List GoString) :
    ∀ db : DB, ∃ new : List Row,
      (createLoop env ord m db).1.rows = db.rows ++ new ∧
      (new.map fun r => (r.name, r.batch)) <+: ord.filterMap (insertedBy m) := by
  induction ord with
  | nil => intro db; exact ⟨[], by simp [createLoop]⟩
  | cons k ks ih =>
    intro db
    cases hl : lookup k m with
    | none =>
      obtain ⟨new, h1, h2⟩ := ih db
      exact ⟨new, by simpa [createLoop, hl] using h1, by simpa [insertedBy, hl] using h2⟩
    | some c =>
      by_cases hm : c.hasMigrated = true
      · obtain ⟨new, h1, h2⟩ := ih db
        exact ⟨new, by simpa [createLoop, hl, hm] using h1, by simpa [insertedBy, hl, hm] using h2⟩
      · cases hi : env.insertOk c.name c.version with
        | false => exact ⟨[], by simp [createLoop, hl, hm, insertRow, hi]⟩
        | true =>
          obtain ⟨new, h1, h2⟩ :=
            ih ⟨db.rows ++ [⟨db.nextId, c.name, c.version⟩], db.nextId + 1, db.journal⟩
          refine ⟨⟨db.nextId, c.name, c.version⟩ :: new, ?_, ?_⟩
          · simpa [createLoop, hl, hm, insertRow, hi] using h1
          · simpa [insertedBy, hl, hm, List.prefix_cons_inj] using h2

/-- The uniqueness of names that `Rollback_reverts_batch` assumes is kept by `Up`: when the names in the table are unique before the call, they are unique after it. -/
theorem Up_keeps_names_unique (env : Env) (sch : Sched) (db : DB)
    (hcreate : sch.create.Nodup) (hnames : (db.rows.map fun r => r.name).Nodup) :
    ((Up env sch db).1.rows.map fun r => r.name).Nodup := by
  cases hm : getMigrateFiles env db with
  | error e => simpa [Up, hm] using hnames
  | ok m =>
    obtain ⟨files, v, _, _, _, _, hrec⟩ := getMigrateFiles_inv hm
    have hrows := (upLoop_rows env sch.main m db).1
    have hfail : ∀ e ∈ m, e.2.fail = false := fun e he => (hrec.entry e.1 e.2 he).2.1
    have hmig := upLoop_clean env m hfail sch.main db
    cases hu : upLoop env sch.main m db with
    | mk m1 db1 dirty err =>
      rw [hu] at hrows hmig
      simp only at hrows hmig
      cases err with
      | some e => simpa [Up, hm, hu, hrows] using hnames
      | none =>
        cases dirty with
        | true => simpa [Up, hm, hu, sweepLoop_rows, hrows] using hnames
        | false =>
          have hm1 : m1 = m := hmig rfl rfl
          subst hm1
          obtain ⟨new, h1, h2⟩ := createLoop_rows env m1 sch.create db1
          have hUp : (Up env sch db).1.rows = db.rows ++ new := by
            simp [Up, hm, hu, create, h1, hrows]
          rw [hUp, List.map_append, List.nodup_append]
          have hkey : ∀ r ∈ new, r.name ∈ sch.create ∧ ∀ x ∈ db.rows, x.name ≠ r.name := by
            intro r hr
            have hmem : (r.name, r.batch) ∈ sch.create.filterMap (insertedBy m1) :=
              h2.subset (List.mem_map.mpr ⟨r, hr, rfl⟩)
            obtain ⟨k, hk, hins⟩ := List.mem_filterMap.mp hmem
            obtain ⟨hn, _⟩ := insertedBy_batch hrec hins
            refine ⟨hn ▸ hk, ?_⟩
            intro x hx hxn
            cases hl : lookup k m1 with
            | none => simp [insertedBy, hl] at hins
            | some c =>
              obtain ⟨_, _, _, _, h5, _⟩ := hrec.entry k c (lookup_mem hl)
              have hsome : (storedBatch k db.rows).isSome = true :=
                storedBatch_isSome.mpr ⟨x, hx, hxn.trans hn⟩
              rw [hsome] at h5
              simp [insertedBy, hl, h5] at hins
          refine ⟨hnames, ?_, ?_⟩
          · have hsub : List.Sublist (new.map fun r => r.name) sch.create := by
              have e1 : (new.map fun r => r.name)
                  = (new.map fun r => (r.name, r.batch)).map Prod.fst := by simp
              have e2 : List.Sublist ((sch.create.filterMap (insertedBy m1)).map Prod.fst) sch.create := by
                have : (sch.create.filterMap (insertedBy m1)).map Prod.fst
                    = sch.create.filter (fun k => (insertedBy m1 k).isSome) := by
                  clear hcreate hkey h2
                  induction sch.create with
                  | nil => rfl
                  | cons k ks ih =>
                    cases hi : insertedBy m1 k with
                    | none => simp [List.filterMap_cons, List.filter_cons, hi, ih]
                    | some p =>
                      obtain ⟨n, b⟩ := p
                      have := (insertedBy_batch hrec hi).1
                      simp [List.filterMap_cons, List.filter_cons, hi, ih, this]
                rw [this]
                exact List.filter_sublist _
              rw [e1]
              exact (h2.sublist.map _).trans e2
            exact hcreate.sublist hsub
          · intro a ha hb
            obtain ⟨x, hx, hxa⟩ := List.mem_map.mp ha
            obtain ⟨r, hr, hra⟩ := List.mem_map.mp hb
            exact (hkey r hr).2 x hx (hxa.trans hra.symm)

/-! ## Where the code departs from the specification -/

theorem getMigrateFiles_empty (env : Env) (nextId : Int) (journal : List GoString) :
    ∃ e, getMigrateFiles env ⟨[], nextId, journal⟩ = .error e := by
  cases hdir : env.dir with
  | none => exact ⟨.readDir, by simp [getMigrateFiles, getFiles, hdir]⟩
  | some files =>
    by_cases hsel : env.selectOk = true
    · exact ⟨.scanNull, by simp [getMigrateFiles, getFiles, hdir, GetVersion, hsel, maxBatch]⟩
    · exact ⟨.query, by simp [getMigrateFiles, getFiles, hdir, GetVersion, hsel]⟩

/-- C1 fails on the code: on a table without rows `GetVersion` returns the error of
`Scan`, and `Up` returns it before it looks at a file.  For the directory of the
scenario on the empty table nothing is executed and no row is inserted; and for every
environment and every iteration order `Up` on a table without rows returns an error and
leaves the database as it was. -/
theorem Up_fails_on_empty_table :
    GetVersion scenario emptyDB = .error .scanNull ∧
    Up scenario oldestFirst emptyDB = (emptyDB, some .scanNull) ∧
    ∀ (env : Env) (sch : Sched) (nextId : Int) (journal : List GoString),
      (Up env sch ⟨[], nextId, journal⟩).1 = ⟨[], nextId, journal⟩ ∧
      (Up env sch ⟨[], nextId, journal⟩).2 ≠ none := by
  refine ⟨by rfl, by decide, ?_⟩
  intro env sch nextId journal
  obtain ⟨e, he⟩ := getMigrateFiles_empty env nextId journal
  simp [Up, he]

/-- C9 fails on the code: for the empty list of stored rows `getMigrateFiles` returns the
error of `GetVersion` and no map, for the directory of the scenario and for every other
environment. -/
theorem getMigrateFiles_fails_on_empty_table :
    getMigrateFiles scenario emptyDB = .error .scanNull ∧
    ∀ (env : Env) (nextId : Int) (journal : List GoString) (m : MigMap),
      getMigrateFiles env ⟨[], nextId, journal⟩ ≠ .ok m := by
  refine ⟨by rfl, ?_⟩
  intro env nextId journal m h
  obtain ⟨e, he⟩ := getMigrateFiles_empty env nextId journal
  rw [he] at h
  cases h

/-- C2 fails on the code: `init` is recorded, `add_col` and `add_idx` are pending.  The
map holds `add_idx` before `add_col` (the order `sort(files, true)` produces), `range`
may visit it in that order, and `Up` then hands the up-file of `add_idx` to `run` before
the up-file of `add_col`, although the prefix of `add_col` is the smaller one. -/
theorem Up_runs_newest_first :
    (getMigrateFiles threePairs initApplied).toOption.map keys = some [nameC, nameB, nameA] ∧
    (getMigrateFiles threePairs initApplied).toOption.map
        (fun m => m.map fun e => (e.2.createdAt, e.2.hasMigrated))
      = some [(ofAscii "2024_01_03_00_0000", false), (ofAscii "2024_01_02_00_0000", false),
              (ofAscii "2024_01_01_00_0000", true)] ∧
    strLt (ofAscii "2024_01_02_00_0000") (ofAscii "2024_01_03_00_0000") = true ∧
    Up threePairs threeNewestFirst initApplied =
      (⟨[⟨1, nameA, 1⟩, ⟨2, nameC, 2⟩, ⟨3, nameB, 2⟩], 4, [ofAscii "UP c", ofAscii "UP b"]⟩,
       none) := by
  refine ⟨by decide, by decide, by decide, by decide⟩

/-- C3 fails on the code: `init` is recorded, `add_col`, `add_idx` and `add_key` are
pending, the run visits `add_key`, then `add_idx`, and the up-file of `add_idx` (the
second of three) is rejected.  The sweep hands to `run` the down-files of `init` (applied
before the run), of `add_key` and of `add_col` (never visited); the table is left as it
was. -/
theorem Up_sweep_reverts_unvisited :
    (getMigrateFiles addIdxRejected initApplied).toOption.map keys
      = some [nameD, nameC, nameB, nameA] ∧
    Up addIdxRejected fromInit initApplied =
      (⟨[⟨1, nameA, 1⟩], 2,
        [ofAscii "UP d", ofAscii "UP c", ofAscii "DOWN a", ofAscii "DOWN d", ofAscii "DOWN b"]⟩,
       none) ∧
    GetVersion addIdxRejected initApplied = .ok 1 ∧
    GetVersion addIdxRejected (Up addIdxRejected fromInit initApplied).1 = .ok 1 := by
  refine ⟨by decide, by decide, by rfl, by rfl⟩

/-- C6 fails on the code: `init` is recorded in the current batch and its down-file is
rejected; the loop of `Rollback` ends with `hasRolledBack = false`, the row is still
there, and `Rollback` returns `nil`. -/
theorem Rollback_returns_nil_on_failure :
    (rollbackLoop initDownRejected 1 [nameA, nameB]
      [(nameB, foundMigration (ofAscii "db") 1 (nameB ++ upSuffix)),
       (nameA, { foundMigration (ofAscii "db") 1 (nameA ++ upSuffix) with
                  version := 1, hasMigrated := true })]
      initApplied true).hasRolledBack = false ∧
    Rollback initDownRejected [nameA, nameB] initApplied =
      (⟨[⟨1, nameA, 1⟩], 2, [ofAscii "DOWN a"]⟩, none) := by
  refine ⟨by decide, by decide⟩

/-- C7 fails on the code: `init` is recorded, `add_col` and `add_idx` are pending, the
up-file of `add_idx` is missing and `range` visits `add_col` first; `Up` returns the
missing-file error after the up-file of `add_col` has been handed to `run`, without
compensation and without a row for `add_col`. -/
theorem Up_missing_file_after_apply :
    (getMigrateFiles addIdxUpMissing initApplied).toOption.map keys
      = some [nameC, nameB, nameA] ∧
    Up addIdxUpMissing fromAddCol initApplied =
      (⟨[⟨1, nameA, 1⟩], 2, [ofAscii "UP b"]⟩,
       some (.missingFile (ofAscii "db/2024_01_03_00_0000_add_idx.up.sql"))) := by
  refine ⟨by decide, by decide⟩

/-- C8 fails on the code: the stamp has 18 bytes, but the layout `2006_02_01_15_0405`
writes the day before the month, so the stamp of 2024-01-31 00:00:00 is greater than
the stamp of the later instant 2024-02-01 00:00:00. -/
theorem formatStamp_day_before_month :
    jan31.valid = true ∧ feb01.valid = true ∧ jan31.before feb01 = true ∧
    formatStamp jan31 = ofAscii "2024_31_01_00_0000" ∧
    formatStamp feb01 = ofAscii "2024_01_02_00_0000" ∧
    (formatStamp jan31).length = 18 ∧ (formatStamp feb01).length = 18 ∧
    makeFileName jan31 (ofAscii "init") (ofAscii "up.sql")
      = ofAscii "2024_31_01_00_0000_init.up.sql" ∧
    strLt (formatStamp jan31) (formatStamp feb01) = false ∧
    strLt (formatStamp feb01) (formatStamp jan31) = true := by
  decide

end Migrate
